import Mathlib

/-!
Shallow embedding of the activity reconciliation engine of `apcaledge`
(src/src/main.rs): the activity data model, the fee-description
classification patterns, partial-fill merging, fee-to-trade association,
day batching and the non-trade rendering dispatch, together with proofs
of the specified properties.

Exact decimal amounts (`num_decimal::Num` in the source) are modelled as
rationals (`ℚ`).  The three fee regexes (`TAF_RE`, `REG_RE`, `ADR_RE`)
and the acquisition price regex (`ACQ_PRICE_RE`) are modelled as
executable scanners over the character list of a string, with the same
leftmost-match semantics as the source's `Regex::is_match`/`captures`.
-/

namespace Apcaledge

/-- Calendar timestamp: `day` is the value of `date_naive()` (a calendar
day), `tod` an abstract time within the day. -/
structure Timestamp where
  day : Int
  tod : Nat
  deriving DecidableEq

/-- Trade side (`apca::api::v2::account_activities::Side`). -/
inductive Side where
  | buy
  | sell
  | shortSell
  | otherSide
  deriving DecidableEq

/-- A trade (fill) activity, mirroring
`account_activities::TradeActivity`. -/
structure TradeActivity where
  id : String
  orderId : String
  symbol : String
  side : Side
  price : ℚ
  quantity : ℚ
  cumulativeQuantity : ℚ
  unfilledQuantity : ℚ
  transactionTime : Timestamp
  deriving DecidableEq

/-- Non-trade activity types used by the program
(`account_activities::ActivityType`); all unsupported types collapse
into `otherType`. -/
inductive ActivityType where
  | cashDeposit
  | cashWithdrawal
  | interest
  | dividend
  | passThruCharge
  | fee
  | acquisition
  | stockSplit
  | otherType
  deriving DecidableEq

/-- A non-trade activity, mirroring
`account_activities::NonTradeActivity`. -/
structure NonTradeActivity where
  id : String
  type_ : ActivityType
  date : Timestamp
  netAmount : ℚ
  symbol : Option String
  description : Option String
  price : Option ℚ
  quantity : Option ℚ
  deriving DecidableEq

/-- `account_activities::Activity`: a trade or a non-trade record. -/
inductive Activity where
  | trade (t : TradeActivity)
  | nonTrade (nt : NonTradeActivity)
  deriving DecidableEq

/-- The timestamp used for ordering/day batching (`Activity::time()`):
`transaction_time` for trades, `date` for non-trades. -/
def Activity.time : Activity → Timestamp
  | .trade t => t.transactionTime
  | .nonTrade nt => nt.date

/-- The record id (`Activity::id()`), used to advance the page token. -/
def Activity.id : Activity → String
  | .trade t => t.id
  | .nonTrade nt => nt.id

/-! ## Fee description scanners

The source classifies fee descriptions with three regular expressions:

* `TAF_RE`: digits wrapped in literal text, matched anywhere;
* `REG_RE`: a decimal number wrapped in literal text, matched anywhere;
* `ADR_RE`: the anchored literal text at the very start.

They are embedded as scanners over `List Char`. -/

/-- Drop a literal pattern from the front of a character list, if it is
there. -/
def dropPfx : List Char → List Char → Option (List Char)
  | [], s => some s
  | _ :: _, [] => none
  | p :: ps, c :: cs => if p = c then dropPfx ps cs else none

/-- Numeric value of a (decimal) digit run. -/
def digitsVal (ds : List Char) : Nat :=
  ds.foldl (fun n c => 10 * n + (c.toNat - 48)) 0

/-- The literal part of `TAF_RE`: "TAF fee for proceed of (?P<shares>\d+) shares". -/
def tafLit : List Char := "TAF fee for proceed of ".data

/-- The literal tail of `TAF_RE` after the digit group. -/
def tafTail : List Char := " shares".data

/-- Match `TAF_RE` at the current position, returning the captured share
count. -/
def tafAt (s : List Char) : Option Nat :=
  match dropPfx tafLit s with
  | none => none
  | some rest =>
    let ds := rest.takeWhile Char.isDigit
    let rest' := rest.dropWhile Char.isDigit
    if ds ≠ [] ∧ (dropPfx tafTail rest').isSome then some (digitsVal ds) else none

/-- Leftmost match of `TAF_RE` anywhere in the string
(`TAF_RE.is_match`/`TAF_RE.captures`), returning the captured share
count. -/
def tafScan : List Char → Option Nat
  | [] => none
  | c :: rest =>
    match tafAt (c :: rest) with
    | some n => some n
    | none => tafScan rest

/-- The literal part of `REG_RE`: "REG fee for proceed of \$(?P<proceeds>\d+\.\d+)". -/
def regLit : List Char := "REG fee for proceed of $".data

/-- Parse `\d+\.\d+` at the current position as an exact decimal
(`Num::from_str` semantics). -/
def decimalAt (s : List Char) : Option ℚ :=
  let a := s.takeWhile Char.isDigit
  match s.dropWhile Char.isDigit with
  | '.' :: r2 =>
    let b := r2.takeWhile Char.isDigit
    if a ≠ [] ∧ b ≠ [] then
      some (((digitsVal a : ℚ) * 10 ^ b.length + (digitsVal b : ℚ)) / 10 ^ b.length)
    else none
  | _ => none

/-- Match `REG_RE` at the current position, returning the captured
proceeds value. -/
def regAt (s : List Char) : Option ℚ :=
  match dropPfx regLit s with
  | none => none
  | some rest => decimalAt rest

/-- Leftmost match of `REG_RE` anywhere in the string, returning the
captured proceeds value. -/
def regScan : List Char → Option ℚ
  | [] => none
  | c :: rest =>
    match regAt (c :: rest) with
    | some q => some q
    | none => regScan rest

/-- `ADR_RE` ("^ADR Fees"): anchored literal match at the start. -/
def adrMatch (s : List Char) : Bool :=
  (dropPfx "ADR Fees".data s).isSome

/-- The literal part of `ACQ_PRICE_RE`: "Cash Merger \$(?P<price>\d+\.\d+)". -/
def acqLit : List Char := "Cash Merger $".data

/-- Match `ACQ_PRICE_RE` at the current position, returning the captured
price. -/
def acqAt (s : List Char) : Option ℚ :=
  match dropPfx acqLit s with
  | none => none
  | some rest => decimalAt rest

/-- Leftmost match of `ACQ_PRICE_RE` anywhere in the string. -/
def acqScan : List Char → Option ℚ
  | [] => none
  | c :: rest =>
    match acqAt (c :: rest) with
    | some q => some q
    | none => acqScan rest

/-! ## Fee classification (`classify_fee`) -/

/-- `classify_fee`: classify a non-trade fee activity according to its
description, returning the target account and the description. -/
def classify_fee (non_trade : NonTradeActivity)
    (brokerage_fee_account sec_fee_account finra_taf_account : String) :
    Except String (String × String) :=
  match non_trade.description with
  | some description =>
    if (tafScan description.data).isSome then
      .ok (finra_taf_account, description)
    else if (regScan description.data).isSome then
      .ok (sec_fee_account, description)
    else if adrMatch description.data then
      .ok (brokerage_fee_account, description)
    else
      .error ("failed to classify fee account activity with description: " ++ description)
  | none => .error "fee activity does not have a description"

/-! ## Partial-fill merging (`merge_partial_fills`) -/

/-- Is `a` a terminal fill that the partial trade `t` can merge with:
a trade with the same `order_id` and `price` and zero
`unfilled_quantity`? -/
def isMatchingTerminal (t : TradeActivity) (a : Activity) : Prop :=
  match a with
  | .trade c => c.orderId = t.orderId ∧ c.price = t.price ∧ c.unfilledQuantity = 0
  | .nonTrade _ => False

instance (t : TradeActivity) (a : Activity) : Decidable (isMatchingTerminal t a) := by
  cases a with
  | trade c => exact inferInstanceAs (Decidable (_ ∧ _))
  | nonTrade nt => exact inferInstanceAs (Decidable False)

/-- The inner scan of `merge_partial_fills`: find the first index `j`
(running from `k`) distinct from `i` holding a terminal fill matching
`t`, returning the index and the candidate trade. -/
def findTermAux (t : TradeActivity) (i : Nat) : Nat → List Activity → Option (Nat × TradeActivity)
  | _, [] => none
  | j, a :: rest =>
    if j ≠ i then
      match a with
      | .trade c =>
        if c.orderId = t.orderId ∧ c.price = t.price ∧ c.unfilledQuantity = 0 then
          some (j, c)
        else findTermAux t i (j + 1) rest
      | .nonTrade _ => findTermAux t i (j + 1) rest
    else findTermAux t i (j + 1) rest

/-- The outer loop of `merge_partial_fills`, with explicit fuel (the
loop terminates because `length - i` strictly decreases; fuel equal to
the initial length is sufficient).  The second component records
whether the merge-time assertion
`debug_assert!(candidate.quantity <= candidate.cumulative_quantity)`
held at every merge step. -/
def mergeLoop : Nat → List Activity → Nat → List Activity × Bool
  | 0, l, _ => (l, true)
  | fuel + 1, l, i =>
    match l[i]? with
    | none => (l, true)
    | some a =>
      match a with
      | .trade t =>
        if t.unfilledQuantity ≠ 0 then
          match findTermAux t i 0 l with
          | some (j, c) =>
            let c' : TradeActivity := { c with quantity := c.quantity + t.quantity }
            let ok := decide (c'.quantity ≤ c.cumulativeQuantity)
            let res := mergeLoop fuel ((l.set j (.trade c')).eraseIdx i) i
            (res.1, ok && res.2)
          | none => mergeLoop fuel l (i + 1)
        else mergeLoop fuel l (i + 1)
      | .nonTrade _ => mergeLoop fuel l (i + 1)

/-- `merge_partial_fills`: merge partial fills for the same order at the
same price into the terminal fill. -/
def merge_partial_fills (activities : List Activity) : List Activity :=
  (mergeLoop activities.length activities 0).1

/-- Whether the merge-time assertion held at every step of
`merge_partial_fills` on the given input. -/
def merge_asserts (activities : List Activity) : Bool :=
  (mergeLoop activities.length activities 0).2

/-! ## Fee association (`associate_fees_with_trades`) -/

/-- The program's reconciled activity (`enum Activity` in the source): a
trade with its associated fees, or a standalone non-trade record. -/
inductive PActivity where
  | trade (t : TradeActivity) (fees : List NonTradeActivity)
  | nonTrade (nt : NonTradeActivity)
  deriving DecidableEq

/-- `From<account_activities::Activity> for Activity`. -/
def PActivity.ofActivity : Activity → PActivity
  | .trade t => .trade t []
  | .nonTrade nt => .nonTrade nt

/-- Outcome of the description-matching chain at the top of the fee
association loop. -/
inductive FeeParse where
  | taf (shares : Nat)
  | reg (proceeds : ℚ)
  | adr
  | unparseable
  deriving DecidableEq

/-- The description-matching chain of `associate_fees_with_trades`:
`TAF_RE.captures`, then `REG_RE.captures`, then `ADR_RE.find`. -/
def feeParse (d : String) : FeeParse :=
  match tafScan d.data with
  | some n => .taf n
  | none =>
    match regScan d.data with
    | some p => .reg p
    | none => if adrMatch d.data then .adr else .unparseable

/-- The inner scan of `associate_fees_with_trades`: find the first
trade whose `quantity` equals the extracted share count or whose
`price * quantity` equals the extracted proceeds. -/
def findFeeTrade (shares : Option ℚ) (proceeds : Option ℚ) :
    Nat → List PActivity → Option (Nat × TradeActivity × List NonTradeActivity)
  | _, [] => none
  | j, a :: rest =>
    match a with
    | .trade t fees =>
      if some t.quantity = shares ∨ some (t.price * t.quantity) = proceeds then
        some (j, t, fees)
      else findFeeTrade shares proceeds (j + 1) rest
    | .nonTrade _ => findFeeTrade shares proceeds (j + 1) rest

/-- The outer loop of `associate_fees_with_trades`, with explicit fuel
(as for `mergeLoop`, fuel equal to the initial length is
sufficient). -/
def assocLoop : Nat → List PActivity → Nat → Except String (List PActivity)
  | 0, l, _ => .ok l
  | fuel + 1, l, i =>
    match l[i]? with
    | none => .ok l
    | some a =>
      match a with
      | .nonTrade nt =>
        if nt.type_ = ActivityType.fee then
          match nt.description with
          | some d =>
            match feeParse d with
            | .taf n =>
              match findFeeTrade (some (n : ℚ)) none 0 l with
              | some (j, t, fees) =>
                assocLoop fuel ((l.set j (.trade t (fees ++ [nt]))).eraseIdx i) i
              | none => assocLoop fuel l (i + 1)
            | .reg p =>
              match findFeeTrade none (some p) 0 l with
              | some (j, t, fees) =>
                assocLoop fuel ((l.set j (.trade t (fees ++ [nt]))).eraseIdx i) i
              | none => assocLoop fuel l (i + 1)
            | .adr => assocLoop fuel l (i + 1)
            | .unparseable => .error ("description string could not be parsed: " ++ d)
          | none => .error "fee activity does not have a description"
        else assocLoop fuel l (i + 1)
      | .trade _ _ => assocLoop fuel l (i + 1)

/-- `associate_fees_with_trades`: try to attach every TAF/REG fee to
the first trade matching its extracted share count or proceeds. -/
def associate_fees_with_trades (activities : List Activity) :
    Except String (List PActivity) :=
  assocLoop activities.length (activities.map PActivity.ofActivity) 0

/-! ## Day batching (`activites_for_a_day`)

The paginated feed is modelled as the list of pages the client would
return (in order); once the list is exhausted, the feed reports empty
pages (end of stream). -/

/-- The pagination request: only `page_token` is ever mutated by the
batcher. -/
structure ActivityReq where
  pageToken : Option String
  after : Option Timestamp
  deriving DecidableEq

/-- The day-boundary test at the top of the `activites_for_a_day` loop:
if the buffer is non-empty and its first and last elements fall on
different calendar days, return the first element's day. -/
def dayBoundary? (acts : List Activity) : Option Int :=
  match acts.head?, acts.getLast? with
  | some f, some l => if f.time.day ≠ l.time.day then some f.time.day else none
  | _, _ => none

/-- `activites_for_a_day`: accumulate fetched pages until the buffer
spans a day boundary (then split it into the first day and the
overflow), or until a fetch returns an empty page (then return the
whole buffer with no overflow).  The loop checks the boundary before
fetching; the remaining feed pages are case-split first only to make
the recursion structural, with the boundary test duplicated in both
branches. -/
def activites_for_a_day :
    List (List Activity) → List Activity → ActivityReq →
    ActivityReq × List Activity × List Activity
  | [], acts, req =>
    match dayBoundary? acts with
    | some start =>
      let parts := acts.partition (fun a => a.time.day = start)
      (req, parts.1, parts.2)
    | none => (req, acts, [])
  | page :: rest, acts, req =>
    match dayBoundary? acts with
    | some start =>
      let parts := acts.partition (fun a => a.time.day = start)
      (req, parts.1, parts.2)
    | none =>
      match page.getLast? with
      | some last =>
        activites_for_a_day rest (acts ++ page) { req with pageToken := some last.id }
      | none => (req, acts, [])

/-! ## Rendering (`print_non_trade`) -/

/-- `extract_acquisition_share_price`: extract the share price from an
acquisition activity's description. -/
def extract_acquisition_share_price (non_trade : NonTradeActivity) : Except String ℚ :=
  match non_trade.description with
  | none => .error "acquisition activity does not have a description"
  | some description =>
    match acqScan description.data with
    | none => .error "acquisition non-trade activity description could not be parsed"
    | some price => .ok price

/-- One journal block written by `print_non_trade`, abstracting the
formatted text by the semantic fields it interpolates. -/
inductive Rendered where
  | transfer (day : Int) (description : Option String) (netAmount : ℚ)
  | interest (day : Int) (description : Option String) (netAmount : ℚ)
  | dividend (day : Int) (name : String) (netAmount : ℚ)
  | passThru (day : Int) (description : Option String) (netAmount : ℚ)
  | feePosting (day : Int) (account : String) (description : String) (amount : ℚ)
  | acquisition (day : Int) (name symbol : String) (quantity price netAmount : ℚ)
  | stockSplit (day : Int) (name symbol : String) (quantity price : ℚ)
      (description : Option String) (total : ℚ)
  deriving DecidableEq

/-- `print_non_trade`: render one non-trade activity as journal
blocks (the empty list models producing no output). -/
def print_non_trade (non_trade : NonTradeActivity)
    (investment_account brokerage_account brokerage_fee_account dividend_account
      sec_fee_account finra_taf_account : String)
    (registry : List (String × String)) : Except String (List Rendered) :=
  match non_trade.type_ with
  | .cashDeposit =>
    .ok [.transfer non_trade.date.day non_trade.description non_trade.netAmount]
  | .cashWithdrawal =>
    .ok [.transfer non_trade.date.day non_trade.description non_trade.netAmount]
  | .interest =>
    .ok [.interest non_trade.date.day non_trade.description non_trade.netAmount]
  | .dividend =>
    match non_trade.symbol with
    | none => .error "dividend entry does not have an associated symbol"
    | some symbol =>
      match registry.lookup symbol with
      | none => .error ("symbol " ++ symbol ++ " not present in registry")
      | some name => .ok [.dividend non_trade.date.day name non_trade.netAmount]
  | .passThruCharge =>
    .ok [.passThru non_trade.date.day non_trade.description non_trade.netAmount]
  | .fee =>
    match classify_fee non_trade brokerage_fee_account sec_fee_account finra_taf_account with
    | .error e => .error e
    | .ok (from_, desc) =>
      .ok [.feePosting non_trade.date.day from_ desc (-non_trade.netAmount)]
  | .acquisition =>
    if non_trade.netAmount = 0 then .ok []
    else
      match extract_acquisition_share_price non_trade with
      | .error e => .error e
      | .ok share_price =>
        match non_trade.symbol with
        | none => .error "acquisition entry does not have an associated symbol"
        | some symbol =>
          match registry.lookup symbol with
          | none => .error ("symbol " ++ symbol ++ " not present in registry")
          | some name =>
            .ok [.acquisition non_trade.date.day name symbol
              (non_trade.netAmount / share_price) share_price non_trade.netAmount]
  | .stockSplit =>
    match non_trade.symbol with
    | none => .error "stock split entry does not have an associated symbol"
    | some symbol =>
      match registry.lookup symbol with
      | none => .error ("symbol " ++ symbol ++ " not present in registry")
      | some name =>
        match non_trade.price with
        | none => .error ("stock split entry for " ++ symbol ++ " does not have an associated price")
        | some price =>
          match non_trade.quantity with
          | none => .error ("stock split entry for " ++ symbol ++ " does not have an associated quantity")
          | some quantity =>
            .ok [.stockSplit non_trade.date.day name symbol quantity price
              non_trade.description (quantity * price)]
  | .otherType => .ok []

/-! ## Derived views of activity lists used in the statements -/

/-- Erase the quantity of a trade record (the only field the merger
mutates); non-trade records are unchanged. -/
def eraseQty : Activity → Activity
  | .trade t => .trade { t with quantity := 0 }
  | .nonTrade nt => .nonTrade nt

/-- Erase the quantity of a trade. -/
def eraseT (t : TradeActivity) : TradeActivity :=
  { t with quantity := 0 }

/-- The non-trade records of an activity list, in order. -/
def ntKey : Activity → Option NonTradeActivity
  | .nonTrade nt => some nt
  | .trade _ => none

/-- The key selecting the trades of one order. -/
def tradeKeyO (oid : String) : Activity → Option TradeActivity := fun a =>
  match a with
  | .trade t => if t.orderId = oid then some t else none
  | .nonTrade _ => none

/-- The trades of a list belonging to one order, in order. -/
def tradesOf (oid : String) (l : List Activity) : List TradeActivity :=
  l.filterMap (tradeKeyO oid)

/-- The terminal fills of one order, with quantities erased. -/
def termKeyO (oid : String) : Activity → Option TradeActivity := fun a =>
  match a with
  | .trade c => if c.orderId = oid ∧ c.unfilledQuantity = 0 then some (eraseT c) else none
  | .nonTrade _ => none

/-- The quantity contributed by an activity to one order's total. -/
def tradeQ (oid : String) : Activity → ℚ := fun a =>
  match a with
  | .trade t => if t.orderId = oid then t.quantity else 0
  | .nonTrade _ => 0

/-- Total trade quantity of one order in a batch. -/
def qSum (oid : String) (l : List Activity) : ℚ :=
  (l.map (tradeQ oid)).sum

/-- The quantity contributed by an activity to one (order, price)
group's total. -/
def tradeQP (oid : String) (p : ℚ) : Activity → ℚ := fun a =>
  match a with
  | .trade t => if t.orderId = oid ∧ t.price = p then t.quantity else 0
  | .nonTrade _ => 0

/-- Total trade quantity of one (order, price) group in a batch. -/
def gSum (oid : String) (p : ℚ) (l : List Activity) : ℚ :=
  (l.map (tradeQP oid p)).sum

/-- A batch is fully merged: no remaining partial fill has a matching
terminal fill anywhere in the batch. -/
def mergedDone (l : List Activity) : Prop :=
  ∀ t : TradeActivity, (.trade t) ∈ l → t.unfilledQuantity ≠ 0 →
    ¬ ∃ a ∈ l, isMatchingTerminal t a

/-- A non-trade record that, were it a fee, could be classified by the
association loop (parseable or ADR description). -/
def feeClassifiable (nt : NonTradeActivity) : Prop :=
  nt.type_ = ActivityType.fee →
    ∃ d, nt.description = some d ∧ feeParse d ≠ FeeParse.unparseable

/-! ## Concrete fixtures for witnesses and counterexamples -/

/-- First partial fill of the repository's `merge_activities_simple`
test. -/
def wP1 : TradeActivity :=
  { id := "1", orderId := "o1", symbol := "XYZ", side := .sell, price := 933/100,
    quantity := 1, cumulativeQuantity := 1, unfilledQuantity := 55,
    transactionTime := ⟨0, 1⟩ }

/-- Second partial fill of the repository's `merge_activities_simple`
test. -/
def wP2 : TradeActivity :=
  { id := "2", orderId := "o1", symbol := "XYZ", side := .sell, price := 933/100,
    quantity := 1, cumulativeQuantity := 2, unfilledQuantity := 54,
    transactionTime := ⟨0, 2⟩ }

/-- Terminal fill of the repository's `merge_activities_simple` test. -/
def wTerm : TradeActivity :=
  { id := "3", orderId := "o1", symbol := "XYZ", side := .sell, price := 933/100,
    quantity := 54, cumulativeQuantity := 56, unfilledQuantity := 0,
    transactionTime := ⟨0, 3⟩ }

/-- The batch of the repository's `merge_activities_simple` test. -/
def wB1 : List Activity := [.trade wP1, .trade wP2, .trade wTerm]

/-- An activity on calendar day 0. -/
def wAct0 : Activity := .trade wP1

/-- An activity on calendar day 5. -/
def wAct5 : Activity := .trade { wP1 with id := "x", transactionTime := ⟨5, 0⟩ }

/-- A pagination request fixture. -/
def wReq : ActivityReq := { pageToken := none, after := none }

/-- A TAF fee whose extracted share count (7) matches no trade. -/
def w3Fee : NonTradeActivity :=
  { id := "f7", type_ := .fee, date := ⟨0, 0⟩, netAmount := -1,
    symbol := none, description := some "TAF fee for proceed of 7 shares",
    price := none, quantity := none }

/-- A batch holding only an unmatched TAF fee. -/
def wB3 : List Activity := [.nonTrade w3Fee]

/-- A fee with an unclassifiable description. -/
def w4Fee : NonTradeActivity :=
  { id := "f4", type_ := .fee, date := ⟨0, 0⟩, netAmount := -1,
    symbol := none, description := some "hello", price := none, quantity := none }

/-- Partial fill with positive quantity used in the counterexample to
the unguarded assertion claim. -/
def c7P : TradeActivity :=
  { id := "cp", orderId := "o7", symbol := "VWX", side := .buy, price := 1,
    quantity := 5, cumulativeQuantity := 5, unfilledQuantity := 1,
    transactionTime := ⟨0, 1⟩ }

/-- Terminal fill of the assertion counterexample. -/
def c7T : TradeActivity :=
  { id := "ct", orderId := "o7", symbol := "VWX", side := .buy, price := 1,
    quantity := 5, cumulativeQuantity := 5, unfilledQuantity := 0,
    transactionTime := ⟨0, 2⟩ }

/-- Negative-quantity partial fill of the assertion counterexample. -/
def c7N : TradeActivity :=
  { id := "cn", orderId := "o7", symbol := "VWX", side := .buy, price := 1,
    quantity := -5, cumulativeQuantity := 0, unfilledQuantity := 1,
    transactionTime := ⟨0, 3⟩ }

/-- Assertion counterexample batch: all trades satisfy
`quantity ≤ cumulative_quantity` and the group total (5) does not
exceed the terminal's cumulative quantity (5), yet the merge-time
assertion fails once the first partial is merged. -/
def cexB7 : List Activity := [.trade c7P, .trade c7T, .trade c7N]

/-- A trade of quantity 5 used in the ADR counterexample. -/
def w8Trade : TradeActivity :=
  { id := "t8", orderId := "o8", symbol := "QRS", side := .buy, price := 1,
    quantity := 5, cumulativeQuantity := 5, unfilledQuantity := 0,
    transactionTime := ⟨0, 1⟩ }

/-- A fee whose description starts with "ADR Fees" but also matches the
TAF pattern. -/
def w8Fee : NonTradeActivity :=
  { id := "f8", type_ := .fee, date := ⟨0, 0⟩, netAmount := -2,
    symbol := none, description := some "ADR Fees TAF fee for proceed of 5 shares",
    price := none, quantity := none }

/-- ADR counterexample batch: the ADR-prefixed fee is attached to the
trade because the TAF pattern matches first. -/
def cexB8 : List Activity := [.trade w8Trade, .nonTrade w8Fee]

/-- A plain ADR fee (matching neither TAF nor REG). -/
def w8Adr : NonTradeActivity :=
  { id := "fa", type_ := .fee, date := ⟨2, 0⟩, netAmount := -3,
    symbol := none, description := some "ADR Fees for QRS", price := none,
    quantity := none }

/-- A batch holding a trade and a plain ADR fee. -/
def wB8 : List Activity := [.trade w8Trade, .nonTrade w8Adr]

/-- An acquisition activity with zero net amount and no other data. -/
def wAcq : NonTradeActivity :=
  { id := "a", type_ := .acquisition, date := ⟨3, 0⟩, netAmount := 0,
    symbol := none, description := none, price := none, quantity := none }

/-- A fee activity whose description matches both the TAF and the REG
pattern. -/
def w10TafReg : NonTradeActivity :=
  { id := "fx", type_ := .fee, date := ⟨0, 0⟩, netAmount := -1,
    symbol := none,
    description := some "TAF fee for proceed of 5 shares REG fee for proceed of $1.00",
    price := none, quantity := none }

/-- A fee activity whose description matches both the ADR and the TAF
pattern. -/
def w10AdrTaf : NonTradeActivity :=
  { id := "fy", type_ := .fee, date := ⟨0, 0⟩, netAmount := -1,
    symbol := none, description := some "ADR Fees TAF fee for proceed of 5 shares",
    price := none, quantity := none }

/-- A fee activity whose description matches both the ADR and the REG
pattern but not the TAF pattern. -/
def w10AdrReg : NonTradeActivity :=
  { id := "fz", type_ := .fee, date := ⟨0, 0⟩, netAmount := -1,
    symbol := none, description := some "ADR Fees REG fee for proceed of $2.50",
    price := none, quantity := none }

/-! ## Generic list lemmas -/

lemma map_eraseIdx' {α β : Type} (f : α → β) :
    ∀ (l : List α) (i : Nat), (l.eraseIdx i).map f = (l.map f).eraseIdx i := by
  intro l
  induction l with
  | nil => intro i; simp [List.eraseIdx]
  | cons hd tl ih =>
    intro i
    cases i with
    | zero => simp [List.eraseIdx]
    | succ i => simp [List.eraseIdx, ih i]

lemma set_getElem_self' {α : Type} :
    ∀ (l : List α) (j : Nat) (h : j < l.length), l.set j l[j] = l := by
  intro l
  induction l with
  | nil => intro j h; simp at h
  | cons hd tl ih =>
    intro j h
    cases j with
    | zero => simp
    | succ j => simpa using ih j (by simpa using h)

lemma sum_map_set' {α : Type} (f : α → ℚ) :
    ∀ (l : List α) (j : Nat) (x : α) (h : j < l.length),
      ((l.set j x).map f).sum = (l.map f).sum - f l[j] + f x := by
  intro l
  induction l with
  | nil => intro j x h; simp at h
  | cons hd tl ih =>
    intro j x h
    cases j with
    | zero =>
      simp only [List.set_cons_zero, List.map_cons, List.sum_cons, List.getElem_cons_zero]
      ring
    | succ j =>
      have hj : j < tl.length := by simpa using h
      simp only [List.set_cons_succ, List.map_cons, List.sum_cons, List.getElem_cons_succ]
      rw [ih j x hj]
      ring

lemma sum_map_eraseIdx' {α : Type} (f : α → ℚ) :
    ∀ (l : List α) (i : Nat) (h : i < l.length),
      ((l.eraseIdx i).map f).sum = (l.map f).sum - f l[i] := by
  intro l
  induction l with
  | nil => intro i h; simp at h
  | cons hd tl ih =>
    intro i h
    cases i with
    | zero =>
      simp only [List.eraseIdx_cons_zero, List.map_cons, List.sum_cons, List.getElem_cons_zero]
      ring
    | succ i =>
      have hi : i < tl.length := by simpa using h
      simp only [List.eraseIdx_cons_succ, List.map_cons, List.sum_cons, List.getElem_cons_succ]
      rw [ih i hi]
      ring

lemma getElem_le_sum_map {α : Type} (f : α → ℚ) :
    ∀ (l : List α) (i : Nat) (h : i < l.length), (∀ a ∈ l, 0 ≤ f a) →
      f l[i] ≤ (l.map f).sum := by
  intro l
  induction l with
  | nil => intro i h; simp at h
  | cons hd tl ih =>
    intro i h hf
    cases i with
    | zero =>
      simp only [List.getElem_cons_zero, List.map_cons, List.sum_cons]
      have : 0 ≤ (tl.map f).sum := by
        apply List.sum_nonneg
        intro x hx
        obtain ⟨a, ha, rfl⟩ := List.mem_map.mp hx
        exact hf a (List.mem_cons_of_mem _ ha)
      linarith
    | succ i =>
      have hi : i < tl.length := by simpa using h
      have h0 : 0 ≤ f hd := hf hd (List.mem_cons_self _ _)
      have := ih i hi (fun a ha => hf a (List.mem_cons_of_mem _ ha))
      simp only [List.getElem_cons_succ, List.map_cons, List.sum_cons]
      linarith

lemma two_getElem_le_sum_map {α : Type} (f : α → ℚ) (l : List α) (i j : Nat)
    (hi : i < l.length) (hj : j < l.length) (hij : i ≠ j)
    (hf : ∀ a ∈ l, 0 ≤ f a) :
    f l[i] + f l[j] ≤ (l.map f).sum := by
  have herase : ((l.eraseIdx i).map f).sum = (l.map f).sum - f l[i] :=
    sum_map_eraseIdx' f l i hi
  have hlen : (l.eraseIdx i).length = l.length - 1 := List.length_eraseIdx_of_lt hi
  have hf' : ∀ a ∈ l.eraseIdx i, 0 ≤ f a :=
    fun a ha => hf a (List.mem_of_mem_eraseIdx ha)
  rcases Nat.lt_or_ge j i with hlt | hge
  · have hj' : j < (l.eraseIdx i).length := by omega
    have : (l.eraseIdx i)[j] = l[j] := List.getElem_eraseIdx_of_lt l i j hj' hlt
    have hle := getElem_le_sum_map f (l.eraseIdx i) j hj' hf'
    rw [this] at hle
    linarith
  · have hgt : i < j := lt_of_le_of_ne hge hij
    obtain ⟨k, rfl⟩ : ∃ k, j = k + 1 := ⟨j - 1, by omega⟩
    have hk' : k < (l.eraseIdx i).length := by omega
    have heq : (l.eraseIdx i)[k] = l[k + 1] :=
      List.getElem_eraseIdx_of_ge l i k hk' (by omega)
    have hle := getElem_le_sum_map f (l.eraseIdx i) k hk' hf'
    rw [heq] at hle
    linarith

lemma filterMap_set_eq {α β : Type} (g : α → Option β) :
    ∀ (l : List α) (j : Nat) (x : α) (h : j < l.length), g x = g l[j] →
      (l.set j x).filterMap g = l.filterMap g := by
  intro l
  induction l with
  | nil => intro j x h; simp at h
  | cons hd tl ih =>
    intro j x h hg
    cases j with
    | zero =>
      simp only [List.getElem_cons_zero] at hg
      simp [List.filterMap_cons, hg]
    | succ j =>
      have hj : j < tl.length := by simpa using h
      simp only [List.getElem_cons_succ] at hg
      simp [List.filterMap_cons, ih j x hj hg]

lemma filterMap_eraseIdx_none {α β : Type} (g : α → Option β) :
    ∀ (l : List α) (i : Nat) (h : i < l.length), g l[i] = none →
      (l.eraseIdx i).filterMap g = l.filterMap g := by
  intro l
  induction l with
  | nil => intro i h; simp at h
  | cons hd tl ih =>
    intro i h hg
    cases i with
    | zero =>
      simp only [List.getElem_cons_zero] at hg
      simp [List.eraseIdx, List.filterMap_cons, hg]
    | succ i =>
      have hi : i < tl.length := by simpa using h
      simp only [List.getElem_cons_succ] at hg
      simp [List.eraseIdx, List.filterMap_cons, ih i hi hg]

lemma mem_set_of_getElem?_ne {α : Type} {a : α} :
    ∀ (l : List α) (j : Nat) (x : α), a ∈ l → l[j]? ≠ some a → a ∈ l.set j x := by
  intro l
  induction l with
  | nil => intro j x ha; simp at ha
  | cons hd tl ih =>
    intro j x ha hne
    cases j with
    | zero =>
      rcases List.mem_cons.mp ha with rfl | ha'
      · simp at hne
      · exact List.mem_cons_of_mem _ ha'
    | succ j =>
      rcases List.mem_cons.mp ha with rfl | ha'
      · exact List.mem_cons_self _ _
      · exact List.mem_cons_of_mem _ (ih j x ha' (by simpa using hne))

lemma mem_eraseIdx_of_getElem?_ne {α : Type} {a : α} :
    ∀ (l : List α) (i : Nat), a ∈ l → l[i]? ≠ some a → a ∈ l.eraseIdx i := by
  intro l
  induction l with
  | nil => intro i ha; simp at ha
  | cons hd tl ih =>
    intro i ha hne
    cases i with
    | zero =>
      rcases List.mem_cons.mp ha with rfl | ha'
      · simp at hne
      · simpa [List.eraseIdx] using ha'
    | succ i =>
      rcases List.mem_cons.mp ha with rfl | ha'
      · simp [List.eraseIdx]
      · exact List.mem_cons_of_mem _ (ih i ha' (by simpa using hne))

lemma mem_of_getElem?_eq {α : Type} {a : α} {l : List α} {i : Nat}
    (h : l[i]? = some a) : a ∈ l := by
  obtain ⟨hlt, rfl⟩ := List.getElem?_eq_some_iff.mp h
  exact List.getElem_mem hlt

/-! ## Properties of the inner terminal-fill scan -/

lemma findTermAux_some (t : TradeActivity) (i : Nat) :
    ∀ (rest : List Activity) (k j : Nat) (c : TradeActivity),
      findTermAux t i k rest = some (j, c) →
      k ≤ j ∧ j - k < rest.length ∧ rest[j - k]? = some (.trade c) ∧ j ≠ i ∧
        c.orderId = t.orderId ∧ c.price = t.price ∧ c.unfilledQuantity = 0 := by
  intro rest
  induction rest with
  | nil => intro k j c h; simp [findTermAux] at h
  | cons a rest ih =>
    intro k j c h
    by_cases hki : k ≠ i
    · cases a with
      | trade c0 =>
        by_cases hc : c0.orderId = t.orderId ∧ c0.price = t.price ∧ c0.unfilledQuantity = 0
        · simp only [findTermAux, if_pos hki, if_pos hc, Option.some.injEq, Prod.mk.injEq] at h
          obtain ⟨rfl, rfl⟩ := h
          exact ⟨le_refl _, by simp, by simp, hki, hc⟩
        · have h' : findTermAux t i (k + 1) rest = some (j, c) := by
            simpa only [findTermAux, if_pos hki, if_neg hc] using h
          obtain ⟨hk1, hlen, hget, hji, hcs⟩ := ih (k + 1) j c h'
          refine ⟨by omega, by simp only [List.length_cons]; omega, ?_, hji, hcs⟩
          have hidx : j - k = (j - (k + 1)) + 1 := by omega
          rw [hidx, List.getElem?_cons_succ]
          exact hget
      | nonTrade nt =>
        have h' : findTermAux t i (k + 1) rest = some (j, c) := by
          simpa only [findTermAux, if_pos hki] using h
        obtain ⟨hk1, hlen, hget, hji, hcs⟩ := ih (k + 1) j c h'
        refine ⟨by omega, by simp only [List.length_cons]; omega, ?_, hji, hcs⟩
        have hidx : j - k = (j - (k + 1)) + 1 := by omega
        rw [hidx, List.getElem?_cons_succ]
        exact hget
    · have h' : findTermAux t i (k + 1) rest = some (j, c) := by
        simpa only [findTermAux, if_neg hki] using h
      obtain ⟨hk1, hlen, hget, hji, hcs⟩ := ih (k + 1) j c h'
      refine ⟨by omega, by simp only [List.length_cons]; omega, ?_, hji, hcs⟩
      have hidx : j - k = (j - (k + 1)) + 1 := by omega
      rw [hidx, List.getElem?_cons_succ]
      exact hget

lemma findTermAux_none (t : TradeActivity) (i : Nat) :
    ∀ (rest : List Activity) (k : Nat), findTermAux t i k rest = none →
      ∀ (d : Nat) (hd : d < rest.length), k + d ≠ i → ¬ isMatchingTerminal t rest[d] := by
  intro rest
  induction rest with
  | nil => intro k _ d hd; simp at hd
  | cons a rest ih =>
    intro k h d hd hkd
    by_cases hki : k ≠ i
    · cases a with
      | trade c0 =>
        by_cases hc : c0.orderId = t.orderId ∧ c0.price = t.price ∧ c0.unfilledQuantity = 0
        · simp only [findTermAux, if_pos hki, if_pos hc] at h
          exact Option.noConfusion h
        · have h' : findTermAux t i (k + 1) rest = none := by
            simpa only [findTermAux, if_pos hki, if_neg hc] using h
          cases d with
          | zero => simpa [isMatchingTerminal] using hc
          | succ d =>
            have := ih (k + 1) h' d (by simpa using hd) (by omega)
            simpa using this
      | nonTrade nt =>
        have h' : findTermAux t i (k + 1) rest = none := by
          simpa only [findTermAux, if_pos hki] using h
        cases d with
        | zero => simp [isMatchingTerminal]
        | succ d =>
          have := ih (k + 1) h' d (by simpa using hd) (by omega)
          simpa using this
    · have h' : findTermAux t i (k + 1) rest = none := by
        simpa only [findTermAux, if_neg hki] using h
      cases d with
      | zero => omega
      | succ d =>
        have := ih (k + 1) h' d (by simpa using hd) (by omega)
        simpa using this

lemma findTermAux_none_noTerm (t : TradeActivity) (i : Nat) (l : List Activity)
    (h : findTermAux t i 0 l = none) (hti : l[i]? = some (.trade t))
    (hunf : t.unfilledQuantity ≠ 0) : ¬ ∃ a ∈ l, isMatchingTerminal t a := by
  rintro ⟨a, ha, hm⟩
  obtain ⟨d, hd, rfl⟩ := List.mem_iff_getElem.mp ha
  by_cases hdi : d = i
  · subst hdi
    rw [List.getElem?_eq_getElem hd] at hti
    have : l[d] = Activity.trade t := by injection hti
    rw [this] at hm
    exact hunf hm.2.2
  · exact findTermAux_none t i l 0 h d hd (by omega) hm

/-! ## Single merge-step lemmas -/

lemma sum_map_step (f : Activity → ℚ) (l : List Activity) (i j : Nat)
    (t c : TradeActivity) (hi : i < l.length) (hj : j < l.length) (hij : j ≠ i)
    (hli : l[i] = .trade t) (hlj : l[j] = .trade c)
    (hf : f (.trade { c with quantity := c.quantity + t.quantity })
      = f (.trade c) + f (.trade t)) :
    (((l.set j (.trade { c with quantity := c.quantity + t.quantity })).eraseIdx i).map f).sum
      = (l.map f).sum := by
  have hi' : i < (l.set j (Activity.trade { c with quantity := c.quantity + t.quantity })).length := by
    rw [List.length_set]; exact hi
  have hset := sum_map_set' f l j (Activity.trade { c with quantity := c.quantity + t.quantity }) hj
  have herase := sum_map_eraseIdx' f
    (l.set j (Activity.trade { c with quantity := c.quantity + t.quantity })) i hi'
  have hgi : (l.set j (Activity.trade { c with quantity := c.quantity + t.quantity }))[i] = l[i] :=
    List.getElem_set_ne hij hi'
  rw [herase, hset, hgi, hli, hlj, hf]
  ring

lemma filterMap_step {β : Type} (g : Activity → Option β) (l : List Activity) (i j : Nat)
    (t c : TradeActivity) (hi : i < l.length) (hj : j < l.length) (hij : j ≠ i)
    (hli : l[i] = .trade t) (hlj : l[j] = .trade c)
    (hg1 : g (.trade { c with quantity := c.quantity + t.quantity }) = g (.trade c))
    (hg2 : g (.trade t) = none) :
    ((l.set j (.trade { c with quantity := c.quantity + t.quantity })).eraseIdx i).filterMap g
      = l.filterMap g := by
  have hi' : i < (l.set j (Activity.trade { c with quantity := c.quantity + t.quantity })).length := by
    rw [List.length_set]; exact hi
  have hgi : (l.set j (Activity.trade { c with quantity := c.quantity + t.quantity }))[i] = l[i] :=
    List.getElem_set_ne hij hi'
  have h1 : (l.set j (Activity.trade { c with quantity := c.quantity + t.quantity })).filterMap g
      = l.filterMap g := by
    apply filterMap_set_eq g l j _ hj
    rw [hlj]
    exact hg1
  have h2 := filterMap_eraseIdx_none g
    (l.set j (Activity.trade { c with quantity := c.quantity + t.quantity })) i hi'
    (by rw [hgi, hli]; exact hg2)
  rw [h2, h1]

lemma map_eraseQty_step (l : List Activity) (i j : Nat)
    (t c : TradeActivity) (hi : i < l.length) (hj : j < l.length) (hij : j ≠ i)
    (hlj : l[j] = .trade c) :
    ((l.set j (.trade { c with quantity := c.quantity + t.quantity })).eraseIdx i).map eraseQty
      = (l.map eraseQty).eraseIdx i := by
  rw [map_eraseIdx' eraseQty, List.map_set]
  congr 1
  have hj' : j < (l.map eraseQty).length := by rw [List.length_map]; exact hj
  have : eraseQty (Activity.trade { c with quantity := c.quantity + t.quantity })
      = (l.map eraseQty)[j] := by
    rw [List.getElem_map, hlj]
    rfl
  rw [this]
  exact set_getElem_self' (l.map eraseQty) j hj'

lemma step_matching_transfer (l : List Activity) (i j : Nat)
    (t c u : TradeActivity) (hj : j < l.length) (hlj : l[j] = .trade c)
    (hx : ∃ a ∈ (l.set j (.trade { c with quantity := c.quantity + t.quantity })).eraseIdx i,
      isMatchingTerminal u a) :
    ∃ a ∈ l, isMatchingTerminal u a := by
  obtain ⟨a, ha, hm⟩ := hx
  rcases List.mem_or_eq_of_mem_set (List.mem_of_mem_eraseIdx ha) with ha' | rfl
  · exact ⟨a, ha', hm⟩
  · refine ⟨.trade c, by rw [← hlj]; exact List.getElem_mem hj, ?_⟩
    exact hm

/-! ## Invariants of the merge loop -/

lemma mergeLoop_sum (f : Activity → ℚ)
    (hf : ∀ t c : TradeActivity, t.unfilledQuantity ≠ 0 → c.orderId = t.orderId →
      c.price = t.price → c.unfilledQuantity = 0 →
      f (.trade { c with quantity := c.quantity + t.quantity })
        = f (.trade c) + f (.trade t)) :
    ∀ (fuel : Nat) (l : List Activity) (i : Nat),
      ((mergeLoop fuel l i).1.map f).sum = (l.map f).sum := by
  intro fuel
  induction fuel with
  | zero => intro l i; rfl
  | succ fuel ih =>
    intro l i
    cases hli? : l[i]? with
    | none => simp [mergeLoop, hli?]
    | some a =>
      cases a with
      | nonTrade nt =>
        have h1 : (mergeLoop (fuel + 1) l i).1 = (mergeLoop fuel l (i + 1)).1 := by
          simp [mergeLoop, hli?]
        rw [h1]
        exact ih l (i + 1)
      | trade t =>
        by_cases hunf : t.unfilledQuantity ≠ 0
        · cases hft : findTermAux t i 0 l with
          | none =>
            have h1 : (mergeLoop (fuel + 1) l i).1 = (mergeLoop fuel l (i + 1)).1 := by
              simp [mergeLoop, hli?, hunf, hft]
            rw [h1]
            exact ih l (i + 1)
          | some jc =>
            obtain ⟨j, c⟩ := jc
            obtain ⟨-, hjlen, hget, hji, hoid, hprice, hzero⟩ :=
              findTermAux_some t i l 0 j c hft
            simp only [Nat.sub_zero] at hjlen hget
            have hi : i < l.length := (List.getElem?_eq_some_iff.mp hli?).1
            have hli : l[i] = .trade t := (List.getElem?_eq_some_iff.mp hli?).2
            have hlj : l[j] = .trade c := (List.getElem?_eq_some_iff.mp hget).2
            have h1 : (mergeLoop (fuel + 1) l i).1
                = (mergeLoop fuel
                    ((l.set j (.trade { c with quantity := c.quantity + t.quantity })).eraseIdx i)
                    i).1 := by
              simp [mergeLoop, hli?, hunf, hft]
            rw [h1, ih, sum_map_step f l i j t c hi hjlen hji hli hlj
              (hf t c hunf hoid hprice hzero)]
        · have h1 : (mergeLoop (fuel + 1) l i).1 = (mergeLoop fuel l (i + 1)).1 := by
            simp [mergeLoop, hli?, hunf]
          rw [h1]
          exact ih l (i + 1)

lemma mergeLoop_filterMap {β : Type} (g : Activity → Option β)
    (hg1 : ∀ t c : TradeActivity, t.unfilledQuantity ≠ 0 → c.orderId = t.orderId →
      c.price = t.price → c.unfilledQuantity = 0 →
      g (.trade { c with quantity := c.quantity + t.quantity }) = g (.trade c))
    (hg2 : ∀ t : TradeActivity, t.unfilledQuantity ≠ 0 → g (.trade t) = none) :
    ∀ (fuel : Nat) (l : List Activity) (i : Nat),
      (mergeLoop fuel l i).1.filterMap g = l.filterMap g := by
  intro fuel
  induction fuel with
  | zero => intro l i; rfl
  | succ fuel ih =>
    intro l i
    cases hli? : l[i]? with
    | none => simp [mergeLoop, hli?]
    | some a =>
      cases a with
      | nonTrade nt =>
        have h1 : (mergeLoop (fuel + 1) l i).1 = (mergeLoop fuel l (i + 1)).1 := by
          simp [mergeLoop, hli?]
        rw [h1]
        exact ih l (i + 1)
      | trade t =>
        by_cases hunf : t.unfilledQuantity ≠ 0
        · cases hft : findTermAux t i 0 l with
          | none =>
            have h1 : (mergeLoop (fuel + 1) l i).1 = (mergeLoop fuel l (i + 1)).1 := by
              simp [mergeLoop, hli?, hunf, hft]
            rw [h1]
            exact ih l (i + 1)
          | some jc =>
            obtain ⟨j, c⟩ := jc
            obtain ⟨-, hjlen, hget, hji, hoid, hprice, hzero⟩ :=
              findTermAux_some t i l 0 j c hft
            simp only [Nat.sub_zero] at hjlen hget
            have hi : i < l.length := (List.getElem?_eq_some_iff.mp hli?).1
            have hli : l[i] = .trade t := (List.getElem?_eq_some_iff.mp hli?).2
            have hlj : l[j] = .trade c := (List.getElem?_eq_some_iff.mp hget).2
            have h1 : (mergeLoop (fuel + 1) l i).1
                = (mergeLoop fuel
                    ((l.set j (.trade { c with quantity := c.quantity + t.quantity })).eraseIdx i)
                    i).1 := by
              simp [mergeLoop, hli?, hunf, hft]
            rw [h1, ih, filterMap_step g l i j t c hi hjlen hji hli hlj
              (hg1 t c hunf hoid hprice hzero) (hg2 t hunf)]
        · have h1 : (mergeLoop (fuel + 1) l i).1 = (mergeLoop fuel l (i + 1)).1 := by
            simp [mergeLoop, hli?, hunf]
          rw [h1]
          exact ih l (i + 1)

lemma mergeLoop_sublist :
    ∀ (fuel : Nat) (l : List Activity) (i : Nat),
      ((mergeLoop fuel l i).1.map eraseQty).Sublist (l.map eraseQty) := by
  intro fuel
  induction fuel with
  | zero => intro l i; exact List.Sublist.refl _
  | succ fuel ih =>
    intro l i
    cases hli? : l[i]? with
    | none => simp [mergeLoop, hli?]
    | some a =>
      cases a with
      | nonTrade nt =>
        have h1 : (mergeLoop (fuel + 1) l i).1 = (mergeLoop fuel l (i + 1)).1 := by
          simp [mergeLoop, hli?]
        rw [h1]
        exact ih l (i + 1)
      | trade t =>
        by_cases hunf : t.unfilledQuantity ≠ 0
        · cases hft : findTermAux t i 0 l with
          | none =>
            have h1 : (mergeLoop (fuel + 1) l i).1 = (mergeLoop fuel l (i + 1)).1 := by
              simp [mergeLoop, hli?, hunf, hft]
            rw [h1]
            exact ih l (i + 1)
          | some jc =>
            obtain ⟨j, c⟩ := jc
            obtain ⟨-, hjlen, hget, hji, hoid, hprice, hzero⟩ :=
              findTermAux_some t i l 0 j c hft
            simp only [Nat.sub_zero] at hjlen hget
            have hi : i < l.length := (List.getElem?_eq_some_iff.mp hli?).1
            have hlj : l[j] = .trade c := (List.getElem?_eq_some_iff.mp hget).2
            have h1 : (mergeLoop (fuel + 1) l i).1
                = (mergeLoop fuel
                    ((l.set j (.trade { c with quantity := c.quantity + t.quantity })).eraseIdx i)
                    i).1 := by
              simp [mergeLoop, hli?, hunf, hft]
            rw [h1]
            have hsub := ih
              ((l.set j (.trade { c with quantity := c.quantity + t.quantity })).eraseIdx i) i
            rw [map_eraseQty_step l i j t c hi hjlen hji hlj] at hsub
            exact hsub.trans (List.eraseIdx_sublist (l.map eraseQty) i)
        · have h1 : (mergeLoop (fuel + 1) l i).1 = (mergeLoop fuel l (i + 1)).1 := by
            simp [mergeLoop, hli?, hunf]
          rw [h1]
          exact ih l (i + 1)

lemma mergeLoop_done :
    ∀ (fuel : Nat) (l : List Activity) (i : Nat),
      l.length ≤ i + fuel →
      (∀ k, k < i → ∀ (hk : k < l.length), ∀ u : TradeActivity,
        l[k] = .trade u → u.unfilledQuantity ≠ 0 → ¬ ∃ a ∈ l, isMatchingTerminal u a) →
      mergedDone (mergeLoop fuel l i).1 := by
  intro fuel
  induction fuel with
  | zero =>
    intro l i hlen hpre
    show mergedDone l
    intro u hu hunf
    obtain ⟨k, hk, hku⟩ := List.mem_iff_getElem.mp hu
    exact hpre k (by omega) hk u hku hunf
  | succ fuel ih =>
    intro l i hlen hpre
    cases hli? : l[i]? with
    | none =>
      have h1 : (mergeLoop (fuel + 1) l i).1 = l := by simp [mergeLoop, hli?]
      rw [h1]
      intro u hu hunf
      obtain ⟨k, hk, hku⟩ := List.mem_iff_getElem.mp hu
      have hilen : l.length ≤ i := List.getElem?_eq_none_iff.mp hli?
      exact hpre k (by omega) hk u hku hunf
    | some a =>
      cases a with
      | nonTrade nt =>
        have h1 : (mergeLoop (fuel + 1) l i).1 = (mergeLoop fuel l (i + 1)).1 := by
          simp [mergeLoop, hli?]
        rw [h1]
        apply ih l (i + 1) (by omega)
        intro k hk hk' u hku hunf
        by_cases hki : k = i
        · subst hki
          have : l[k] = Activity.nonTrade nt := (List.getElem?_eq_some_iff.mp hli?).2
          rw [this] at hku
          exact Activity.noConfusion hku
        · exact hpre k (by omega) hk' u hku hunf
      | trade t =>
        have hi : i < l.length := (List.getElem?_eq_some_iff.mp hli?).1
        have hli : l[i] = .trade t := (List.getElem?_eq_some_iff.mp hli?).2
        by_cases hunf : t.unfilledQuantity ≠ 0
        · cases hft : findTermAux t i 0 l with
          | none =>
            have h1 : (mergeLoop (fuel + 1) l i).1 = (mergeLoop fuel l (i + 1)).1 := by
              simp [mergeLoop, hli?, hunf, hft]
            rw [h1]
            apply ih l (i + 1) (by omega)
            intro k hk hk' u hku hunf'
            by_cases hki : k = i
            · subst hki
              rw [hli] at hku
              have : t = u := by injection hku
              subst this
              exact findTermAux_none_noTerm t k l hft hli? hunf'
            · exact hpre k (by omega) hk' u hku hunf'
          | some jc =>
            obtain ⟨j, c⟩ := jc
            obtain ⟨-, hjlen, hget, hji, hoid, hprice, hzero⟩ :=
              findTermAux_some t i l 0 j c hft
            simp only [Nat.sub_zero] at hjlen hget
            have hlj : l[j] = .trade c := (List.getElem?_eq_some_iff.mp hget).2
            have h1 : (mergeLoop (fuel + 1) l i).1
                = (mergeLoop fuel
                    ((l.set j (.trade { c with quantity := c.quantity + t.quantity })).eraseIdx i)
                    i).1 := by
              simp [mergeLoop, hli?, hunf, hft]
            rw [h1]
            have hsetlen :
                (l.set j (Activity.trade { c with quantity := c.quantity + t.quantity })).length
                  = l.length := List.length_set ..
            have hlen' :
                ((l.set j (Activity.trade { c with quantity := c.quantity + t.quantity })).eraseIdx
                  i).length = l.length - 1 := by
              rw [List.length_eraseIdx_of_lt (by omega), hsetlen]
            apply ih _ i (by omega)
            intro k hk hk' u hku hunf'
            have hkl : k < l.length := by omega
            have hkset :
                ((l.set j (Activity.trade { c with quantity := c.quantity + t.quantity })).eraseIdx
                  i)[k]
                = (l.set j (Activity.trade { c with quantity := c.quantity + t.quantity }))[k] :=
              List.getElem_eraseIdx_of_lt _ i k hk' hk
            by_cases hkj : k = j
            · subst hkj
              rw [hkset, List.getElem_set_self (by omega)] at hku
              have : ({ c with quantity := c.quantity + t.quantity } : TradeActivity) = u := by
                injection hku
              subst this
              exact absurd hzero hunf'
            · rw [hkset, List.getElem_set_ne (fun h => hkj h.symm) (by omega)] at hku
              intro hex
              exact hpre k (by omega) hkl u hku hunf'
                (step_matching_transfer l i j t c u hjlen hlj hex)
        · have h1 : (mergeLoop (fuel + 1) l i).1 = (mergeLoop fuel l (i + 1)).1 := by
            simp [mergeLoop, hli?, hunf]
          rw [h1]
          apply ih l (i + 1) (by omega)
          intro k hk hk' u hku hunf'
          by_cases hki : k = i
          · subst hki
            rw [hli] at hku
            have : t = u := by injection hku
            subst this
            exact absurd hunf' hunf
          · exact hpre k (by omega) hk' u hku hunf'

lemma mergeLoop_of_done :
    ∀ (fuel : Nat) (l : List Activity) (i : Nat), mergedDone l →
      mergeLoop fuel l i = (l, true) := by
  intro fuel
  induction fuel with
  | zero => intro l i _; rfl
  | succ fuel ih =>
    intro l i hdone
    cases hli? : l[i]? with
    | none => simp [mergeLoop, hli?]
    | some a =>
      cases a with
      | nonTrade nt =>
        have h1 : mergeLoop (fuel + 1) l i = mergeLoop fuel l (i + 1) := by
          simp [mergeLoop, hli?]
        rw [h1]
        exact ih l (i + 1) hdone
      | trade t =>
        have hi : i < l.length := (List.getElem?_eq_some_iff.mp hli?).1
        have hli : l[i] = .trade t := (List.getElem?_eq_some_iff.mp hli?).2
        by_cases hunf : t.unfilledQuantity ≠ 0
        · cases hft : findTermAux t i 0 l with
          | none =>
            have h1 : mergeLoop (fuel + 1) l i = mergeLoop fuel l (i + 1) := by
              simp [mergeLoop, hli?, hunf, hft]
            rw [h1]
            exact ih l (i + 1) hdone
          | some jc =>
            obtain ⟨j, c⟩ := jc
            obtain ⟨-, hjlen, hget, hji, hoid, hprice, hzero⟩ :=
              findTermAux_some t i l 0 j c hft
            simp only [Nat.sub_zero] at hjlen hget
            have hlj : l[j] = .trade c := (List.getElem?_eq_some_iff.mp hget).2
            have htmem : (Activity.trade t) ∈ l := by rw [← hli]; exact List.getElem_mem hi
            have hcmem : (Activity.trade c) ∈ l := by rw [← hlj]; exact List.getElem_mem hjlen
            exact absurd ⟨Activity.trade c, hcmem, hoid, hprice, hzero⟩
              (hdone t htmem hunf)
        · have h1 : mergeLoop (fuel + 1) l i = mergeLoop fuel l (i + 1) := by
            simp [mergeLoop, hli?, hunf]
          rw [h1]
          exact ih l (i + 1) hdone

lemma mergeLoop_asserts :
    ∀ (fuel : Nat) (l : List Activity) (i : Nat),
      (∀ u : TradeActivity, (.trade u) ∈ l → 0 ≤ u.quantity) →
      (∀ u : TradeActivity, (.trade u) ∈ l → u.unfilledQuantity = 0 →
        gSum u.orderId u.price l ≤ u.cumulativeQuantity) →
      (∀ u : TradeActivity, (.trade u) ∈ l → u.quantity ≤ u.cumulativeQuantity) →
      (mergeLoop fuel l i).2 = true ∧
        (∀ u : TradeActivity, (.trade u) ∈ (mergeLoop fuel l i).1 →
          u.quantity ≤ u.cumulativeQuantity) := by
  intro fuel
  induction fuel with
  | zero => intro l i _ _ hqc; exact ⟨rfl, hqc⟩
  | succ fuel ih =>
    intro l i hq hcum hqc
    cases hli? : l[i]? with
    | none =>
      have h1 : mergeLoop (fuel + 1) l i = (l, true) := by simp [mergeLoop, hli?]
      rw [h1]
      exact ⟨rfl, hqc⟩
    | some a =>
      cases a with
      | nonTrade nt =>
        have h1 : mergeLoop (fuel + 1) l i = mergeLoop fuel l (i + 1) := by
          simp [mergeLoop, hli?]
        rw [h1]
        exact ih l (i + 1) hq hcum hqc
      | trade t =>
        have hi : i < l.length := (List.getElem?_eq_some_iff.mp hli?).1
        have hli : l[i] = .trade t := (List.getElem?_eq_some_iff.mp hli?).2
        by_cases hunf : t.unfilledQuantity ≠ 0
        · cases hft : findTermAux t i 0 l with
          | none =>
            have h1 : mergeLoop (fuel + 1) l i = mergeLoop fuel l (i + 1) := by
              simp [mergeLoop, hli?, hunf, hft]
            rw [h1]
            exact ih l (i + 1) hq hcum hqc
          | some jc =>
            obtain ⟨j, c⟩ := jc
            obtain ⟨-, hjlen, hget, hji, hoid, hprice, hzero⟩ :=
              findTermAux_some t i l 0 j c hft
            simp only [Nat.sub_zero] at hjlen hget
            have hlj : l[j] = .trade c := (List.getElem?_eq_some_iff.mp hget).2
            have htmem : (Activity.trade t) ∈ l := by rw [← hli]; exact List.getElem_mem hi
            have hcmem : (Activity.trade c) ∈ l := by rw [← hlj]; exact List.getElem_mem hjlen
            -- the merged quantity never exceeds the candidate's cumulative quantity
            have hnn : ∀ a ∈ l, 0 ≤ tradeQP c.orderId c.price a := by
              intro a ha
              cases a with
              | trade u =>
                simp only [tradeQP]
                by_cases hcnd : u.orderId = c.orderId ∧ u.price = c.price
                · rw [if_pos hcnd]; exact hq u ha
                · rw [if_neg hcnd]
              | nonTrade nt => simp [tradeQP]
            have htwo := two_getElem_le_sum_map (tradeQP c.orderId c.price) l i j hi hjlen
              (fun h => hji h.symm) hnn
            rw [hli, hlj] at htwo
            have hfi : tradeQP c.orderId c.price (Activity.trade t) = t.quantity := by
              simp only [tradeQP]
              rw [if_pos ⟨hoid.symm, hprice.symm⟩]
            have hfj : tradeQP c.orderId c.price (Activity.trade c) = c.quantity := by
              simp [tradeQP]
            rw [hfi, hfj] at htwo
            have hassert : c.quantity + t.quantity ≤ c.cumulativeQuantity := by
              have := hcum c hcmem hzero
              unfold gSum at this
              linarith
            -- resulting list of the merge step
            have hsetlen :
                (l.set j (Activity.trade { c with quantity := c.quantity + t.quantity })).length
                  = l.length := List.length_set ..
            have hmem' : ∀ a ∈ (l.set j
                (Activity.trade { c with quantity := c.quantity + t.quantity })).eraseIdx i,
                a = Activity.trade { c with quantity := c.quantity + t.quantity } ∨ a ∈ l := by
              intro a ha
              rcases List.mem_or_eq_of_mem_set (List.mem_of_mem_eraseIdx ha) with ha' | rfl
              · exact Or.inr ha'
              · exact Or.inl rfl
            have hfeq : ∀ (oid : String) (p : ℚ),
                tradeQP oid p (.trade { c with quantity := c.quantity + t.quantity })
                  = tradeQP oid p (.trade c) + tradeQP oid p (.trade t) := by
              intro oid p
              simp only [tradeQP]
              by_cases hcnd : c.orderId = oid ∧ c.price = p
              · have ht' : t.orderId = oid ∧ t.price = p :=
                  ⟨hoid.symm.trans hcnd.1, hprice.symm.trans hcnd.2⟩
                rw [if_pos hcnd, if_pos ht', if_pos hcnd]
              · have ht' : ¬(t.orderId = oid ∧ t.price = p) := by
                  intro hh
                  exact hcnd ⟨hoid.trans hh.1, hprice.trans hh.2⟩
                rw [if_neg hcnd, if_neg ht', if_neg hcnd]
                ring
            have hgsum : ∀ (oid : String) (p : ℚ),
                gSum oid p ((l.set j
                  (Activity.trade { c with quantity := c.quantity + t.quantity })).eraseIdx i)
                  = gSum oid p l := by
              intro oid p
              exact sum_map_step (tradeQP oid p) l i j t c hi hjlen hji hli hlj (hfeq oid p)
            have hq' : ∀ u : TradeActivity, (.trade u) ∈ (l.set j
                (Activity.trade { c with quantity := c.quantity + t.quantity })).eraseIdx i →
                0 ≤ u.quantity := by
              intro u hu
              rcases hmem' _ hu with heq | hmem
              · have : ({ c with quantity := c.quantity + t.quantity } : TradeActivity) = u := by
                  injection heq.symm
                subst this
                have h1 := hq c hcmem
                have h2 := hq t htmem
                show (0 : ℚ) ≤ c.quantity + t.quantity
                linarith
              · exact hq u hmem
            have hcum' : ∀ u : TradeActivity, (.trade u) ∈ (l.set j
                (Activity.trade { c with quantity := c.quantity + t.quantity })).eraseIdx i →
                u.unfilledQuantity = 0 →
                gSum u.orderId u.price ((l.set j
                  (Activity.trade { c with quantity := c.quantity + t.quantity })).eraseIdx i)
                  ≤ u.cumulativeQuantity := by
              intro u hu hu0
              rw [hgsum]
              rcases hmem' _ hu with heq | hmem
              · have : ({ c with quantity := c.quantity + t.quantity } : TradeActivity) = u := by
                  injection heq.symm
                subst this
                exact hcum c hcmem hzero
              · exact hcum u hmem hu0
            have hqc' : ∀ u : TradeActivity, (.trade u) ∈ (l.set j
                (Activity.trade { c with quantity := c.quantity + t.quantity })).eraseIdx i →
                u.quantity ≤ u.cumulativeQuantity := by
              intro u hu
              rcases hmem' _ hu with heq | hmem
              · have : ({ c with quantity := c.quantity + t.quantity } : TradeActivity) = u := by
                  injection heq.symm
                subst this
                exact hassert
              · exact hqc u hmem
            obtain ⟨ihb, ihq⟩ := ih ((l.set j
              (Activity.trade { c with quantity := c.quantity + t.quantity })).eraseIdx i) i
              hq' hcum' hqc'
            have h1 : (mergeLoop (fuel + 1) l i).1
                = (mergeLoop fuel
                    ((l.set j (.trade { c with quantity := c.quantity + t.quantity })).eraseIdx i)
                    i).1 := by
              simp [mergeLoop, hli?, hunf, hft]
            have h2 : (mergeLoop (fuel + 1) l i).2
                = (decide ((c.quantity + t.quantity : ℚ) ≤ c.cumulativeQuantity) &&
                    (mergeLoop fuel
                      ((l.set j (.trade { c with quantity := c.quantity + t.quantity })).eraseIdx i)
                      i).2) := by
              simp [mergeLoop, hli?, hunf, hft]
            constructor
            · rw [h2, ihb, Bool.and_true, decide_eq_true_eq]
              exact hassert
            · rw [h1]
              exact ihq
        · have h1 : mergeLoop (fuel + 1) l i = mergeLoop fuel l (i + 1) := by
            simp [mergeLoop, hli?, hunf]
          rw [h1]
          exact ih l (i + 1) hq hcum hqc

/-! ## Properties of the fee association loop -/

lemma findFeeTrade_some (sh pr : Option ℚ) :
    ∀ (rest : List PActivity) (k j : Nat) (t : TradeActivity) (fees : List NonTradeActivity),
      findFeeTrade sh pr k rest = some (j, t, fees) →
      k ≤ j ∧ rest[j - k]? = some (.trade t fees) ∧
        (some t.quantity = sh ∨ some (t.price * t.quantity) = pr) := by
  intro rest
  induction rest with
  | nil => intro k j t fees h; simp [findFeeTrade] at h
  | cons a rest ih =>
    intro k j t fees h
    cases a with
    | trade t0 fees0 =>
      by_cases hc : some t0.quantity = sh ∨ some (t0.price * t0.quantity) = pr
      · simp only [findFeeTrade, if_pos hc, Option.some.injEq, Prod.mk.injEq] at h
        obtain ⟨rfl, rfl, rfl⟩ := h
        exact ⟨le_refl _, by simp, hc⟩
      · have h' : findFeeTrade sh pr (k + 1) rest = some (j, t, fees) := by
          simpa only [findFeeTrade, if_neg hc] using h
        obtain ⟨hk1, hget, hcs⟩ := ih (k + 1) j t fees h'
        refine ⟨by omega, ?_, hcs⟩
        have hidx : j - k = (j - (k + 1)) + 1 := by omega
        rw [hidx, List.getElem?_cons_succ]
        exact hget
    | nonTrade nt =>
      have h' : findFeeTrade sh pr (k + 1) rest = some (j, t, fees) := by
        simpa only [findFeeTrade] using h
      obtain ⟨hk1, hget, hcs⟩ := ih (k + 1) j t fees h'
      refine ⟨by omega, ?_, hcs⟩
      have hidx : j - k = (j - (k + 1)) + 1 := by omega
      rw [hidx, List.getElem?_cons_succ]
      exact hget

lemma findFeeTrade_none (sh pr : Option ℚ) :
    ∀ (rest : List PActivity) (k : Nat), findFeeTrade sh pr k rest = none →
      ∀ (t : TradeActivity) (fees : List NonTradeActivity), (.trade t fees) ∈ rest →
        ¬(some t.quantity = sh ∨ some (t.price * t.quantity) = pr) := by
  intro rest
  induction rest with
  | nil => intro k _ t fees hmem; simp at hmem
  | cons a rest ih =>
    intro k h t fees hmem
    cases a with
    | trade t0 fees0 =>
      by_cases hc : some t0.quantity = sh ∨ some (t0.price * t0.quantity) = pr
      · simp only [findFeeTrade, if_pos hc] at h
        exact Option.noConfusion h
      · have h' : findFeeTrade sh pr (k + 1) rest = none := by
          simpa only [findFeeTrade, if_neg hc] using h
        rcases List.mem_cons.mp hmem with heq | hmem'
        · obtain ⟨rfl, rfl⟩ : t = t0 ∧ fees = fees0 := by
            constructor <;> injection heq <;> assumption
          exact hc
        · exact ih (k + 1) h' t fees hmem'
    | nonTrade nt =>
      have h' : findFeeTrade sh pr (k + 1) rest = none := by
        simpa only [findFeeTrade] using h
      rcases List.mem_cons.mp hmem with heq | hmem'
      · exact PActivity.noConfusion heq
      · exact ih (k + 1) h' t fees hmem'

lemma assoc_step_nonTrade_mem {m : NonTradeActivity} {l : List PActivity} {i j : Nat}
    {t : TradeActivity} {fs : List NonTradeActivity}
    (h : (.nonTrade m) ∈ (l.set j (.trade t fs)).eraseIdx i) : (.nonTrade m) ∈ l := by
  rcases List.mem_or_eq_of_mem_set (List.mem_of_mem_eraseIdx h) with h' | h'
  · exact h'
  · exact PActivity.noConfusion h'

lemma assocLoop_ok :
    ∀ (fuel : Nat) (l : List PActivity) (i : Nat),
      (∀ nt : NonTradeActivity, (.nonTrade nt) ∈ l → feeClassifiable nt) →
      ∃ r, assocLoop fuel l i = .ok r := by
  intro fuel
  induction fuel with
  | zero => intro l i _; exact ⟨l, rfl⟩
  | succ fuel ih =>
    intro l i hclass
    cases hli? : l[i]? with
    | none => exact ⟨l, by simp [assocLoop, hli?]⟩
    | some a =>
      cases a with
      | trade t fees =>
        have h1 : assocLoop (fuel + 1) l i = assocLoop fuel l (i + 1) := by
          simp [assocLoop, hli?]
        rw [h1]
        exact ih l (i + 1) hclass
      | nonTrade nt =>
        have hmem : (PActivity.nonTrade nt) ∈ l :=
          mem_of_getElem?_eq hli?
        by_cases hfee : nt.type_ = ActivityType.fee
        · obtain ⟨d, hd, hne⟩ := hclass nt hmem hfee
          cases hp : feeParse d with
          | unparseable => exact absurd hp hne
          | adr =>
            have h1 : assocLoop (fuel + 1) l i = assocLoop fuel l (i + 1) := by
              simp [assocLoop, hli?, hfee, hd, hp]
            rw [h1]
            exact ih l (i + 1) hclass
          | taf n =>
            cases hfind : findFeeTrade (some (n : ℚ)) none 0 l with
            | none =>
              have h1 : assocLoop (fuel + 1) l i = assocLoop fuel l (i + 1) := by
                simp [assocLoop, hli?, hfee, hd, hp, hfind]
              rw [h1]
              exact ih l (i + 1) hclass
            | some jtf =>
              obtain ⟨j, t, fees⟩ := jtf
              have h1 : assocLoop (fuel + 1) l i
                  = assocLoop fuel ((l.set j (.trade t (fees ++ [nt]))).eraseIdx i) i := by
                simp [assocLoop, hli?, hfee, hd, hp, hfind]
              rw [h1]
              apply ih
              intro m hm
              exact hclass m (assoc_step_nonTrade_mem hm)
          | reg p =>
            cases hfind : findFeeTrade none (some p) 0 l with
            | none =>
              have h1 : assocLoop (fuel + 1) l i = assocLoop fuel l (i + 1) := by
                simp [assocLoop, hli?, hfee, hd, hp, hfind]
              rw [h1]
              exact ih l (i + 1) hclass
            | some jtf =>
              obtain ⟨j, t, fees⟩ := jtf
              have h1 : assocLoop (fuel + 1) l i
                  = assocLoop fuel ((l.set j (.trade t (fees ++ [nt]))).eraseIdx i) i := by
                simp [assocLoop, hli?, hfee, hd, hp, hfind]
              rw [h1]
              apply ih
              intro m hm
              exact hclass m (assoc_step_nonTrade_mem hm)
        · have h1 : assocLoop (fuel + 1) l i = assocLoop fuel l (i + 1) := by
            simp [assocLoop, hli?, hfee]
          rw [h1]
          exact ih l (i + 1) hclass

lemma assocLoop_keeps :
    ∀ (fuel : Nat) (l : List PActivity) (i : Nat) (nt : NonTradeActivity),
      (.nonTrade nt) ∈ l →
      (∀ (t : TradeActivity) (fees : List NonTradeActivity),
        (.trade t fees) ∈ l → nt ∉ fees) →
      (∀ d, nt.description = some d →
        (∀ n : Nat, feeParse d = .taf n →
          ∀ (t : TradeActivity) (fees : List NonTradeActivity),
            (.trade t fees) ∈ l → ¬(t.quantity = (n : ℚ))) ∧
        (∀ p : ℚ, feeParse d = .reg p →
          ∀ (t : TradeActivity) (fees : List NonTradeActivity),
            (.trade t fees) ∈ l → ¬(t.price * t.quantity = p))) →
      ∀ r, assocLoop fuel l i = .ok r →
        (.nonTrade nt) ∈ r ∧
          ∀ (t : TradeActivity) (fees : List NonTradeActivity),
            (.trade t fees) ∈ r → nt ∉ fees := by
  intro fuel
  induction fuel with
  | zero =>
    intro l i nt hmem hfees _ r h
    obtain rfl : l = r := by injection h
    exact ⟨hmem, hfees⟩
  | succ fuel ih =>
    intro l i nt hmem hfees hnm r h
    cases hli? : l[i]? with
    | none =>
      rw [show assocLoop (fuel + 1) l i = .ok l by simp [assocLoop, hli?]] at h
      obtain rfl : l = r := by injection h
      exact ⟨hmem, hfees⟩
    | some a =>
      cases a with
      | trade t fees =>
        rw [show assocLoop (fuel + 1) l i = assocLoop fuel l (i + 1) by
          simp [assocLoop, hli?]] at h
        exact ih l (i + 1) nt hmem hfees hnm r h
      | nonTrade nt0 =>
        by_cases hfee : nt0.type_ = ActivityType.fee
        · cases hdesc : nt0.description with
          | none =>
            rw [show assocLoop (fuel + 1) l i
                = .error "fee activity does not have a description" by
              simp [assocLoop, hli?, hfee, hdesc]] at h
            exact Except.noConfusion h
          | some d0 =>
            cases hp : feeParse d0 with
            | unparseable =>
              rw [show assocLoop (fuel + 1) l i
                  = .error ("description string could not be parsed: " ++ d0) by
                simp [assocLoop, hli?, hfee, hdesc, hp]] at h
              exact Except.noConfusion h
            | adr =>
              rw [show assocLoop (fuel + 1) l i = assocLoop fuel l (i + 1) by
                simp [assocLoop, hli?, hfee, hdesc, hp]] at h
              exact ih l (i + 1) nt hmem hfees hnm r h
            | taf n =>
              cases hfind : findFeeTrade (some (n : ℚ)) none 0 l with
              | none =>
                rw [show assocLoop (fuel + 1) l i = assocLoop fuel l (i + 1) by
                  simp [assocLoop, hli?, hfee, hdesc, hp, hfind]] at h
                exact ih l (i + 1) nt hmem hfees hnm r h
              | some jtf =>
                obtain ⟨j, tt, tfees⟩ := jtf
                obtain ⟨-, hget, hcond⟩ :=
                  findFeeTrade_some (some (n : ℚ)) none l 0 j tt tfees hfind
                simp only [Nat.sub_zero] at hget
                have htq : tt.quantity = (n : ℚ) := by
                  rcases hcond with hc | hc
                  · injection hc
                  · exact Option.noConfusion hc
                have httmem : (PActivity.trade tt tfees) ∈ l := mem_of_getElem?_eq hget
                have hne : nt0 ≠ nt := by
                  rintro rfl
                  exact (hnm d0 hdesc).1 n hp tt tfees httmem htq
                have hij : i ≠ j := by
                  intro hij
                  rw [hij, hget] at hli?
                  exact PActivity.noConfusion (Option.some.inj hli?)
                rw [show assocLoop (fuel + 1) l i
                    = assocLoop fuel ((l.set j (.trade tt (tfees ++ [nt0]))).eraseIdx i) i by
                  simp [assocLoop, hli?, hfee, hdesc, hp, hfind]] at h
                have hset_i : (l.set j (PActivity.trade tt (tfees ++ [nt0])))[i]?
                    = some (.nonTrade nt0) := by
                  rw [List.getElem?_set_ne (fun hh => hij hh.symm)]
                  exact hli?
                have hmem' : (PActivity.nonTrade nt)
                    ∈ (l.set j (.trade tt (tfees ++ [nt0]))).eraseIdx i := by
                  apply mem_eraseIdx_of_getElem?_ne
                  · apply mem_set_of_getElem?_ne _ _ _ hmem
                    rw [hget]
                    intro hh
                    exact PActivity.noConfusion (by injection hh)
                  · rw [hset_i]
                    intro hh
                    have : nt0 = nt := by
                      have := Option.some.inj hh
                      injection this
                    exact hne this
                have hfees' : ∀ (t' : TradeActivity) (fs' : List NonTradeActivity),
                    (.trade t' fs') ∈ (l.set j (.trade tt (tfees ++ [nt0]))).eraseIdx i →
                    nt ∉ fs' := by
                  intro t' fs' ht'
                  rcases List.mem_or_eq_of_mem_set (List.mem_of_mem_eraseIdx ht') with h' | h'
                  · exact hfees t' fs' h'
                  · obtain ⟨ht'eq, hf'eq⟩ : t' = tt ∧ fs' = tfees ++ [nt0] := by
                      constructor <;> injection h' <;> assumption
                    rw [hf'eq]
                    intro hin
                    rcases List.mem_append.mp hin with hin' | hin'
                    · exact hfees tt tfees httmem hin'
                    · exact hne (List.mem_singleton.mp hin').symm
                have hnm' : ∀ d, nt.description = some d →
                    (∀ n' : Nat, feeParse d = .taf n' →
                      ∀ (t' : TradeActivity) (fs' : List NonTradeActivity),
                        (.trade t' fs') ∈ (l.set j (.trade tt (tfees ++ [nt0]))).eraseIdx i →
                          ¬(t'.quantity = (n' : ℚ))) ∧
                    (∀ p' : ℚ, feeParse d = .reg p' →
                      ∀ (t' : TradeActivity) (fs' : List NonTradeActivity),
                        (.trade t' fs') ∈ (l.set j (.trade tt (tfees ++ [nt0]))).eraseIdx i →
                          ¬(t'.price * t'.quantity = p')) := by
                  intro d hd
                  constructor
                  · intro n' hp' t' fs' ht'
                    rcases List.mem_or_eq_of_mem_set (List.mem_of_mem_eraseIdx ht') with h' | h'
                    · exact (hnm d hd).1 n' hp' t' fs' h'
                    · have ht'eq : t' = tt := by injection h'
                      rw [ht'eq]
                      exact (hnm d hd).1 n' hp' tt tfees httmem
                  · intro p' hp' t' fs' ht'
                    rcases List.mem_or_eq_of_mem_set (List.mem_of_mem_eraseIdx ht') with h' | h'
                    · exact (hnm d hd).2 p' hp' t' fs' h'
                    · have ht'eq : t' = tt := by injection h'
                      rw [ht'eq]
                      exact (hnm d hd).2 p' hp' tt tfees httmem
                exact ih _ i nt hmem' hfees' hnm' r h
            | reg p =>
              cases hfind : findFeeTrade none (some p) 0 l with
              | none =>
                rw [show assocLoop (fuel + 1) l i = assocLoop fuel l (i + 1) by
                  simp [assocLoop, hli?, hfee, hdesc, hp, hfind]] at h
                exact ih l (i + 1) nt hmem hfees hnm r h
              | some jtf =>
                obtain ⟨j, tt, tfees⟩ := jtf
                obtain ⟨-, hget, hcond⟩ :=
                  findFeeTrade_some none (some p) l 0 j tt tfees hfind
                simp only [Nat.sub_zero] at hget
                have htq : tt.price * tt.quantity = p := by
                  rcases hcond with hc | hc
                  · exact Option.noConfusion hc
                  · injection hc
                have httmem : (PActivity.trade tt tfees) ∈ l := mem_of_getElem?_eq hget
                have hne : nt0 ≠ nt := by
                  rintro rfl
                  exact (hnm d0 hdesc).2 p hp tt tfees httmem htq
                have hij : i ≠ j := by
                  intro hij
                  rw [hij, hget] at hli?
                  exact PActivity.noConfusion (Option.some.inj hli?)
                rw [show assocLoop (fuel + 1) l i
                    = assocLoop fuel ((l.set j (.trade tt (tfees ++ [nt0]))).eraseIdx i) i by
                  simp [assocLoop, hli?, hfee, hdesc, hp, hfind]] at h
                have hset_i : (l.set j (PActivity.trade tt (tfees ++ [nt0])))[i]?
                    = some (.nonTrade nt0) := by
                  rw [List.getElem?_set_ne (fun hh => hij hh.symm)]
                  exact hli?
                have hmem' : (PActivity.nonTrade nt)
                    ∈ (l.set j (.trade tt (tfees ++ [nt0]))).eraseIdx i := by
                  apply mem_eraseIdx_of_getElem?_ne
                  · apply mem_set_of_getElem?_ne _ _ _ hmem
                    rw [hget]
                    intro hh
                    exact PActivity.noConfusion (by injection hh)
                  · rw [hset_i]
                    intro hh
                    have : nt0 = nt := by
                      have := Option.some.inj hh
                      injection this
                    exact hne this
                have hfees' : ∀ (t' : TradeActivity) (fs' : List NonTradeActivity),
                    (.trade t' fs') ∈ (l.set j (.trade tt (tfees ++ [nt0]))).eraseIdx i →
                    nt ∉ fs' := by
                  intro t' fs' ht'
                  rcases List.mem_or_eq_of_mem_set (List.mem_of_mem_eraseIdx ht') with h' | h'
                  · exact hfees t' fs' h'
                  · obtain ⟨ht'eq, hf'eq⟩ : t' = tt ∧ fs' = tfees ++ [nt0] := by
                      constructor <;> injection h' <;> assumption
                    rw [hf'eq]
                    intro hin
                    rcases List.mem_append.mp hin with hin' | hin'
                    · exact hfees tt tfees httmem hin'
                    · exact hne (List.mem_singleton.mp hin').symm
                have hnm' : ∀ d, nt.description = some d →
                    (∀ n' : Nat, feeParse d = .taf n' →
                      ∀ (t' : TradeActivity) (fs' : List NonTradeActivity),
                        (.trade t' fs') ∈ (l.set j (.trade tt (tfees ++ [nt0]))).eraseIdx i →
                          ¬(t'.quantity = (n' : ℚ))) ∧
                    (∀ p' : ℚ, feeParse d = .reg p' →
                      ∀ (t' : TradeActivity) (fs' : List NonTradeActivity),
                        (.trade t' fs') ∈ (l.set j (.trade tt (tfees ++ [nt0]))).eraseIdx i →
                          ¬(t'.price * t'.quantity = p')) := by
                  intro d hd
                  constructor
                  · intro n' hp' t' fs' ht'
                    rcases List.mem_or_eq_of_mem_set (List.mem_of_mem_eraseIdx ht') with h' | h'
                    · exact (hnm d hd).1 n' hp' t' fs' h'
                    · have ht'eq : t' = tt := by injection h'
                      rw [ht'eq]
                      exact (hnm d hd).1 n' hp' tt tfees httmem
                  · intro p' hp' t' fs' ht'
                    rcases List.mem_or_eq_of_mem_set (List.mem_of_mem_eraseIdx ht') with h' | h'
                    · exact (hnm d hd).2 p' hp' t' fs' h'
                    · have ht'eq : t' = tt := by injection h'
                      rw [ht'eq]
                      exact (hnm d hd).2 p' hp' tt tfees httmem
                exact ih _ i nt hmem' hfees' hnm' r h
        · rw [show assocLoop (fuel + 1) l i = assocLoop fuel l (i + 1) by
            simp [assocLoop, hli?, hfee]] at h
          exact ih l (i + 1) nt hmem hfees hnm r h

/-! ## Bridging lemmas between the group views -/

lemma mem_tradesOf (oid : String) (l : List Activity) (u : TradeActivity) :
    u ∈ tradesOf oid l ↔ (.trade u) ∈ l ∧ u.orderId = oid := by
  unfold tradesOf
  rw [List.mem_filterMap]
  constructor
  · rintro ⟨a, ha, hfa⟩
    cases a with
    | trade v =>
      have hfa' : (if v.orderId = oid then some v else none) = some u := hfa
      by_cases hv : v.orderId = oid
      · rw [if_pos hv] at hfa'
        obtain rfl : v = u := by injection hfa'
        exact ⟨ha, hv⟩
      · rw [if_neg hv] at hfa'
        exact Option.noConfusion hfa'
    | nonTrade nt => exact Option.noConfusion hfa
  · rintro ⟨hmem, hoid⟩
    refine ⟨.trade u, hmem, ?_⟩
    show (if u.orderId = oid then some u else none) = some u
    rw [if_pos hoid]

lemma tradeKeyO_trade (oid : String) (v : TradeActivity) :
    tradeKeyO oid (.trade v) = if v.orderId = oid then some v else none := rfl

lemma tradeKeyO_nonTrade (oid : String) (nt : NonTradeActivity) :
    tradeKeyO oid (.nonTrade nt) = none := rfl

lemma termKeyO_trade (oid : String) (v : TradeActivity) :
    termKeyO oid (.trade v)
      = if v.orderId = oid ∧ v.unfilledQuantity = 0 then some (eraseT v) else none := rfl

lemma termKeyO_nonTrade (oid : String) (nt : NonTradeActivity) :
    termKeyO oid (.nonTrade nt) = none := rfl

lemma tradeQ_trade (oid : String) (v : TradeActivity) :
    tradeQ oid (.trade v) = if v.orderId = oid then v.quantity else 0 := rfl

lemma tradeQ_nonTrade (oid : String) (nt : NonTradeActivity) :
    tradeQ oid (.nonTrade nt) = 0 := rfl

lemma termKeyO_eq_filter (oid : String) :
    ∀ l : List Activity,
      l.filterMap (termKeyO oid)
        = ((tradesOf oid l).filter (fun u => u.unfilledQuantity = 0)).map eraseT := by
  intro l
  induction l with
  | nil => rfl
  | cons a rest ih =>
    cases a with
    | trade v =>
      by_cases h1 : v.orderId = oid
      · by_cases h2 : v.unfilledQuantity = 0
        · rw [List.filterMap_cons, termKeyO_trade, if_pos ⟨h1, h2⟩]
          rw [show tradesOf oid (Activity.trade v :: rest)
              = v :: tradesOf oid rest by
            simp [tradesOf, List.filterMap_cons, tradeKeyO_trade, h1]]
          rw [List.filter_cons]
          simp only [h2]
          rw [if_pos (by decide), List.map_cons, ih]
        · rw [List.filterMap_cons, termKeyO_trade, if_neg (fun hh => h2 hh.2)]
          rw [show tradesOf oid (Activity.trade v :: rest)
              = v :: tradesOf oid rest by
            simp [tradesOf, List.filterMap_cons, tradeKeyO_trade, h1]]
          rw [List.filter_cons]
          simp only [h2]
          rw [if_neg (by decide)]
          exact ih
      · rw [List.filterMap_cons, termKeyO_trade, if_neg (fun hh => h1 hh.1)]
        rw [show tradesOf oid (Activity.trade v :: rest) = tradesOf oid rest by
          simp [tradesOf, List.filterMap_cons, tradeKeyO_trade, h1]]
        exact ih
    | nonTrade nt =>
      rw [List.filterMap_cons, termKeyO_nonTrade]
      rw [show tradesOf oid (Activity.nonTrade nt :: rest) = tradesOf oid rest by
        simp [tradesOf, List.filterMap_cons, tradeKeyO_nonTrade]]
      exact ih

lemma qSum_eq_tradesOf (oid : String) :
    ∀ l : List Activity,
      qSum oid l = ((tradesOf oid l).map (fun u => u.quantity)).sum := by
  intro l
  induction l with
  | nil => rfl
  | cons a rest ih =>
    cases a with
    | trade v =>
      by_cases h1 : v.orderId = oid
      · rw [show qSum oid (Activity.trade v :: rest) = v.quantity + qSum oid rest by
          simp [qSum, tradeQ_trade, h1]]
        rw [show tradesOf oid (Activity.trade v :: rest) = v :: tradesOf oid rest by
          simp [tradesOf, List.filterMap_cons, tradeKeyO_trade, h1]]
        rw [List.map_cons, List.sum_cons, ih]
      · rw [show qSum oid (Activity.trade v :: rest) = qSum oid rest by
          simp [qSum, tradeQ_trade, h1]]
        rw [show tradesOf oid (Activity.trade v :: rest) = tradesOf oid rest by
          simp [tradesOf, List.filterMap_cons, tradeKeyO_trade, h1]]
        exact ih
    | nonTrade nt =>
      rw [show qSum oid (Activity.nonTrade nt :: rest) = qSum oid rest by
        simp [qSum, tradeQ_nonTrade]]
      rw [show tradesOf oid (Activity.nonTrade nt :: rest) = tradesOf oid rest by
        simp [tradesOf, List.filterMap_cons, tradeKeyO_nonTrade]]
      exact ih

lemma merge_trade_source (B : List Activity) (u : TradeActivity)
    (h : (.trade u) ∈ merge_partial_fills B) :
    ∃ v : TradeActivity, (.trade v) ∈ B ∧ eraseT v = eraseT u := by
  have hsub := mergeLoop_sublist B.length B 0
  have h1 : eraseQty (.trade u) ∈ (merge_partial_fills B).map eraseQty :=
    List.mem_map_of_mem _ h
  have h2 : eraseQty (.trade u) ∈ B.map eraseQty := hsub.subset h1
  obtain ⟨a, ha, heq⟩ := List.mem_map.mp h2
  cases a with
  | nonTrade nt => exact Activity.noConfusion heq
  | trade v =>
    refine ⟨v, ha, ?_⟩
    have : Activity.trade (eraseT v) = Activity.trade (eraseT u) := heq
    injection this

lemma mem_map_ofActivity_nonTrade (B : List Activity) (nt : NonTradeActivity) :
    (PActivity.nonTrade nt) ∈ B.map PActivity.ofActivity ↔ (Activity.nonTrade nt) ∈ B := by
  rw [List.mem_map]
  constructor
  · rintro ⟨a, ha, heq⟩
    cases a with
    | trade t => exact PActivity.noConfusion heq
    | nonTrade nt' =>
      obtain rfl : nt' = nt := by injection heq
      exact ha
  · intro h
    exact ⟨.nonTrade nt, h, rfl⟩

lemma mem_map_ofActivity_trade (B : List Activity) (t : TradeActivity)
    (fees : List NonTradeActivity)
    (h : (PActivity.trade t fees) ∈ B.map PActivity.ofActivity) :
    (Activity.trade t) ∈ B := by
  obtain ⟨a, ha, heq⟩ := List.mem_map.mp h
  cases a with
  | trade t' =>
    obtain rfl : t' = t := by injection heq
    exact ha
  | nonTrade nt => exact PActivity.noConfusion heq

/-! ## Claim theorems -/

/-- C4: fee classification fails exactly when it should: `classify_fee`
returns an error if and only if the activity has no description or its
description matches none of the TAF, REG and ADR patterns; in the
unclassifiable case the error names the offending description. -/
theorem classify_fee_error_iff :
    ∀ (nt : NonTradeActivity) (bfa sfa fta : String),
      ((∃ e, classify_fee nt bfa sfa fta = .error e) ↔
        (nt.description = none ∨
          ∃ d, nt.description = some d ∧ tafScan d.data = none ∧ regScan d.data = none ∧
            adrMatch d.data = false))
      ∧ (∀ d, nt.description = some d → tafScan d.data = none → regScan d.data = none →
          adrMatch d.data = false →
          classify_fee nt bfa sfa fta
            = .error ("failed to classify fee account activity with description: " ++ d)) := by
  intro nt bfa sfa fta
  cases hdesc : nt.description with
  | none =>
    refine ⟨⟨fun _ => Or.inl rfl,
      fun _ => ⟨"fee activity does not have a description", by simp [classify_fee, hdesc]⟩⟩, ?_⟩
    intro d hd
    exact Option.noConfusion hd
  | some d0 =>
    cases hts : tafScan d0.data with
    | some n =>
      have hcf : classify_fee nt bfa sfa fta = .ok (fta, d0) := by
        simp [classify_fee, hdesc, hts]
      constructor
      · constructor
        · rintro ⟨e, he⟩
          rw [hcf] at he
          exact Except.noConfusion he
        · rintro (h | ⟨d, hd, htn, -, -⟩)
          · exact Option.noConfusion h
          · obtain rfl : d0 = d := by injection hd
            rw [htn] at hts
            exact Option.noConfusion hts
      · intro d hd htn _ _
        obtain rfl : d0 = d := by injection hd
        rw [htn] at hts
        exact Option.noConfusion hts
    | none =>
      cases hrs : regScan d0.data with
      | some p =>
        have hcf : classify_fee nt bfa sfa fta = .ok (sfa, d0) := by
          simp [classify_fee, hdesc, hts, hrs]
        constructor
        · constructor
          · rintro ⟨e, he⟩
            rw [hcf] at he
            exact Except.noConfusion he
          · rintro (h | ⟨d, hd, -, hrn, -⟩)
            · exact Option.noConfusion h
            · obtain rfl : d0 = d := by injection hd
              rw [hrn] at hrs
              exact Option.noConfusion hrs
        · intro d hd _ hrn _
          obtain rfl : d0 = d := by injection hd
          rw [hrn] at hrs
          exact Option.noConfusion hrs
      | none =>
        cases har : adrMatch d0.data with
        | true =>
          have hcf : classify_fee nt bfa sfa fta = .ok (bfa, d0) := by
            simp [classify_fee, hdesc, hts, hrs, har]
          constructor
          · constructor
            · rintro ⟨e, he⟩
              rw [hcf] at he
              exact Except.noConfusion he
            · rintro (h | ⟨d, hd, -, -, han⟩)
              · exact Option.noConfusion h
              · obtain rfl : d0 = d := by injection hd
                rw [han] at har
                exact Bool.noConfusion har
          · intro d hd _ _ han
            obtain rfl : d0 = d := by injection hd
            rw [han] at har
            exact Bool.noConfusion har
        | false =>
          have hcf : classify_fee nt bfa sfa fta
              = .error ("failed to classify fee account activity with description: " ++ d0) := by
            simp [classify_fee, hdesc, hts, hrs, har]
          constructor
          · exact ⟨fun _ => Or.inr ⟨d0, rfl, hts, hrs, har⟩, fun _ => ⟨_, hcf⟩⟩
          · intro d hd _ _ _
            obtain rfl : d0 = d := by injection hd
            exact hcf

/-- Witness for C4 at a concrete unclassifiable fee: the classification
error names the offending description. -/
theorem classify_fee_error_iff_witness :
    classify_fee w4Fee "bf" "sec" "taf"
      = .error "failed to classify fee account activity with description: hello" :=
  (classify_fee_error_iff w4Fee "bf" "sec" "taf").2 "hello" rfl (by decide) (by decide) (by decide)

/-- C9: rendering an acquisition non-trade activity whose net amount is
zero produces no output and succeeds, regardless of description, symbol
or registry contents. -/
theorem print_non_trade_zero_acquisition :
    ∀ (nt : NonTradeActivity) (ia ba bfa da sfa fta : String)
      (registry : List (String × String)),
      nt.type_ = ActivityType.acquisition → nt.netAmount = 0 →
      print_non_trade nt ia ba bfa da sfa fta registry = .ok [] := by
  intro nt ia ba bfa da sfa fta registry htype hzero
  simp [print_non_trade, htype, hzero]

/-- Witness for C9 at a concrete zero-amount acquisition with no
description, no symbol and an empty registry. -/
theorem print_non_trade_zero_acquisition_witness :
    wAcq.type_ = ActivityType.acquisition ∧ wAcq.netAmount = 0 ∧
      print_non_trade wAcq "i" "b" "bf" "d" "s" "f" [] = .ok [] :=
  ⟨rfl, rfl, print_non_trade_zero_acquisition wAcq "i" "b" "bf" "d" "s" "f" [] rfl rfl⟩

/-- C10: the classification patterns are tried in a fixed order (TAF,
then REG, then ADR), in both `classify_fee` and the extraction chain of
`associate_fees_with_trades` (`feeParse`): a description matching both
TAF and REG classifies as TAF, and one matching ADR together with TAF
(resp. REG) is classified by the TAF (resp. REG) pattern. -/
theorem fee_pattern_precedence :
    ∀ (nt : NonTradeActivity) (d : String) (bfa sfa fta : String),
      nt.description = some d →
      (((tafScan d.data).isSome ∧ (regScan d.data).isSome) →
        classify_fee nt bfa sfa fta = .ok (fta, d) ∧ ∃ n, feeParse d = .taf n)
      ∧ ((adrMatch d.data = true ∧ (tafScan d.data).isSome) →
        classify_fee nt bfa sfa fta = .ok (fta, d) ∧ ∃ n, feeParse d = .taf n)
      ∧ ((adrMatch d.data = true ∧ tafScan d.data = none ∧ (regScan d.data).isSome) →
        classify_fee nt bfa sfa fta = .ok (sfa, d) ∧ ∃ p, feeParse d = .reg p) := by
  intro nt d bfa sfa fta hdesc
  refine ⟨?_, ?_, ?_⟩
  · rintro ⟨ht, -⟩
    cases hts : tafScan d.data with
    | none => rw [hts] at ht; exact Bool.noConfusion ht
    | some n =>
      exact ⟨by simp [classify_fee, hdesc, hts], n, by simp [feeParse, hts]⟩
  · rintro ⟨-, ht⟩
    cases hts : tafScan d.data with
    | none => rw [hts] at ht; exact Bool.noConfusion ht
    | some n =>
      exact ⟨by simp [classify_fee, hdesc, hts], n, by simp [feeParse, hts]⟩
  · rintro ⟨-, hts, hr⟩
    cases hrs : regScan d.data with
    | none => rw [hrs] at hr; exact Bool.noConfusion hr
    | some p =>
      exact ⟨by simp [classify_fee, hdesc, hts, hrs], p, by simp [feeParse, hts, hrs]⟩

/-- Witness for C10 at concrete overlapping descriptions: TAF+REG
classifies as TAF, ADR+TAF as TAF, ADR+REG as REG. -/
theorem fee_pattern_precedence_witness :
    (classify_fee w10TafReg "bf" "sec" "taf"
        = .ok ("taf", "TAF fee for proceed of 5 shares REG fee for proceed of $1.00")
      ∧ ∃ n, feeParse "TAF fee for proceed of 5 shares REG fee for proceed of $1.00"
          = .taf n)
    ∧ (classify_fee w10AdrTaf "bf" "sec" "taf"
        = .ok ("taf", "ADR Fees TAF fee for proceed of 5 shares")
      ∧ ∃ n, feeParse "ADR Fees TAF fee for proceed of 5 shares" = .taf n)
    ∧ (classify_fee w10AdrReg "bf" "sec" "taf"
        = .ok ("sec", "ADR Fees REG fee for proceed of $2.50")
      ∧ ∃ p, feeParse "ADR Fees REG fee for proceed of $2.50" = .reg p) :=
  ⟨(fee_pattern_precedence w10TafReg _ "bf" "sec" "taf" rfl).1 (by decide),
   (fee_pattern_precedence w10AdrTaf _ "bf" "sec" "taf" rfl).2.1 (by decide),
   (fee_pattern_precedence w10AdrReg _ "bf" "sec" "taf" rfl).2.2 (by decide)⟩

/-- C2: day batching.  When the non-empty buffer's first (oldest, under
the feed's ascending order) and last elements fall on different calendar
days, `activites_for_a_day` returns as ready exactly the buffered
activities dated like the first one and as overflow all the others, with
the request unchanged (no overflow activity is ready, no first-day
activity is left out); when a fetch returns an empty page (including an
exhausted feed) it returns the whole buffer as ready with an empty
overflow. -/
theorem activites_for_a_day_spec :
    (∀ (pages : List (List Activity)) (acts : List Activity) (req : ActivityReq)
       (f l : Activity), acts.head? = some f → acts.getLast? = some l →
       f.time.day ≠ l.time.day →
       activites_for_a_day pages acts req
         = (req, acts.filter (fun a => a.time.day = f.time.day),
                 acts.filter (fun a => ¬(a.time.day = f.time.day)))
       ∧ (∀ a, a ∈ (activites_for_a_day pages acts req).2.1 ↔
           a ∈ acts ∧ a.time.day = f.time.day)
       ∧ (∀ a, a ∈ (activites_for_a_day pages acts req).2.2 ↔
           a ∈ acts ∧ ¬(a.time.day = f.time.day)))
    ∧ (∀ (rest : List (List Activity)) (acts : List Activity) (req : ActivityReq),
       dayBoundary? acts = none →
       activites_for_a_day ([] :: rest) acts req = (req, acts, []))
    ∧ (∀ (acts : List Activity) (req : ActivityReq),
       dayBoundary? acts = none →
       activites_for_a_day [] acts req = (req, acts, [])) := by
  have hmain : ∀ (pages : List (List Activity)) (acts : List Activity) (req : ActivityReq)
      (f l : Activity), acts.head? = some f → acts.getLast? = some l →
      f.time.day ≠ l.time.day →
      activites_for_a_day pages acts req
        = (req, acts.filter (fun a => a.time.day = f.time.day),
                acts.filter (fun a => ¬(a.time.day = f.time.day))) := by
    intro pages acts req f l hf hl hne
    have hbd : dayBoundary? acts = some f.time.day := by
      simp [dayBoundary?, hf, hl, hne]
    have hneg : List.filter (not ∘ fun a => decide (a.time.day = f.time.day)) acts
        = List.filter (fun a => decide ¬(a.time.day = f.time.day)) acts := by
      apply List.filter_congr
      intro a _
      simp [Function.comp, decide_not]
    cases pages with
    | nil =>
      rw [activites_for_a_day, hbd]
      simp only [List.partition_eq_filter_filter]
      rw [hneg]
    | cons page rest =>
      rw [activites_for_a_day, hbd]
      simp only [List.partition_eq_filter_filter]
      rw [hneg]
  refine ⟨?_, ?_, ?_⟩
  · intro pages acts req f l hf hl hne
    have heq := hmain pages acts req f l hf hl hne
    refine ⟨heq, ?_, ?_⟩
    · intro a
      rw [heq]
      simp [List.mem_filter]
    · intro a
      rw [heq]
      simp [List.mem_filter]
  · intro rest acts req hbd
    rw [activites_for_a_day, hbd]
    rfl
  · intro acts req hbd
    rw [activites_for_a_day, hbd]

/-- Witness for C2 at a concrete two-day buffer and a concrete one-page
feed. -/
theorem activites_for_a_day_spec_witness :
    activites_for_a_day [[wAct5]] [wAct0, wAct5] wReq = (wReq, [wAct0], [wAct5])
    ∧ activites_for_a_day ([] :: [[wAct5]]) [wAct0] wReq = (wReq, [wAct0], []) := by
  constructor
  · rw [(activites_for_a_day_spec.1 [[wAct5]] [wAct0, wAct5] wReq wAct0 wAct5
      rfl rfl (by decide)).1]
    rfl
  · exact activites_for_a_day_spec.2.1 [[wAct5]] [wAct0] wReq (by decide)

lemma tradeQ_merge_step (oid : String) (t c : TradeActivity)
    (hoid : c.orderId = t.orderId) :
    tradeQ oid (.trade { c with quantity := c.quantity + t.quantity })
      = tradeQ oid (.trade c) + tradeQ oid (.trade t) := by
  by_cases h : c.orderId = oid
  · have ht : t.orderId = oid := hoid.symm.trans h
    simp [tradeQ_trade, h, ht]
  · have ht : ¬(t.orderId = oid) := fun hh => h (hoid.trans hh)
    simp [tradeQ_trade, h, ht]

/-- C5: merging is idempotent: re-running `merge_partial_fills` on an
already-merged batch produces no change. -/
theorem merge_partial_fills_idempotent :
    ∀ B : List Activity,
      merge_partial_fills (merge_partial_fills B) = merge_partial_fills B := by
  intro B
  have hdone : mergedDone (merge_partial_fills B) := by
    apply mergeLoop_done B.length B 0 (by omega)
    intro k hk
    exact absurd hk (Nat.not_lt_zero k)
  show (mergeLoop (merge_partial_fills B).length (merge_partial_fills B) 0).1
    = merge_partial_fills B
  rw [mergeLoop_of_done (merge_partial_fills B).length (merge_partial_fills B) 0 hdone]

/-- C6: `merge_partial_fills` never merges or alters non-trade records
(the non-trade subsequence is untouched), never moves quantity between
different orders (each order's total quantity is preserved), and every
surviving activity keeps its relative order and all its fields except
possibly the quantity (the quantity-erased output is a subsequence of
the quantity-erased input). -/
theorem merge_partial_fills_frame :
    ∀ B : List Activity,
      (merge_partial_fills B).filterMap ntKey = B.filterMap ntKey
      ∧ (∀ oid : String, qSum oid (merge_partial_fills B) = qSum oid B)
      ∧ ((merge_partial_fills B).map eraseQty).Sublist (B.map eraseQty) := by
  intro B
  refine ⟨?_, ?_, mergeLoop_sublist B.length B 0⟩
  · apply mergeLoop_filterMap
    · intro t c _ _ _ _
      rfl
    · intro t _
      rfl
  · intro oid
    exact mergeLoop_sum (tradeQ oid)
      (fun t c _ hoid _ _ => tradeQ_merge_step oid t c hoid) B.length B 0

/-- C7 (amended): under the additional precondition that every trade
quantity is nonnegative, if every input trade satisfies
`quantity ≤ cumulative_quantity` and each (order, price) group's total
quantity does not exceed any of its terminal fills' cumulative
quantity, then the merge-time assertion holds at every step and every
trade in the output of `merge_partial_fills` satisfies
`quantity ≤ cumulative_quantity`. -/
theorem merge_asserts_hold_of_nonneg :
    ∀ B : List Activity,
      (∀ u : TradeActivity, (.trade u) ∈ B → 0 ≤ u.quantity) →
      (∀ u : TradeActivity, (.trade u) ∈ B → u.quantity ≤ u.cumulativeQuantity) →
      (∀ u : TradeActivity, (.trade u) ∈ B → u.unfilledQuantity = 0 →
        gSum u.orderId u.price B ≤ u.cumulativeQuantity) →
      merge_asserts B = true ∧
        ∀ u : TradeActivity, (.trade u) ∈ merge_partial_fills B →
          u.quantity ≤ u.cumulativeQuantity := by
  intro B hq hqc hcum
  exact mergeLoop_asserts B.length B 0 hq hcum hqc

/-- Counterexample to C7 as stated: in `cexB7` every trade satisfies
`quantity ≤ cumulative_quantity` and the (order, price) group total (5)
does not exceed the terminal fill's cumulative quantity (5), yet the
merge-time assertion fails (a negative-quantity partial fill makes an
intermediate merged quantity overshoot). -/
theorem merge_assert_can_fail_cex :
    (∀ u : TradeActivity, (.trade u) ∈ cexB7 → u.quantity ≤ u.cumulativeQuantity)
    ∧ (∀ u : TradeActivity, (.trade u) ∈ cexB7 → u.unfilledQuantity = 0 →
        gSum u.orderId u.price cexB7 ≤ u.cumulativeQuantity)
    ∧ merge_asserts cexB7 = false := by
  refine ⟨?_, ?_, by
    norm_num [merge_asserts, mergeLoop, cexB7, c7P, c7T, c7N, findTermAux, eraseT]⟩
  · intro u hu
    simp only [cexB7, List.mem_cons, List.not_mem_nil, or_false] at hu
    rcases hu with h | h | h
    · injection h with h2
      subst h2
      decide
    · injection h with h2
      subst h2
      decide
    · injection h with h2
      subst h2
      decide
  · intro u hu hu0
    simp only [cexB7, List.mem_cons, List.not_mem_nil, or_false] at hu
    rcases hu with h | h | h
    · injection h with h2
      subst h2
      exact absurd hu0 (by decide)
    · injection h with h2
      subst h2
      norm_num [gSum, cexB7, tradeQP, c7P, c7T, c7N]
    · injection h with h2
      subst h2
      exact absurd hu0 (by decide)

/-- Witness for the amended C7 at the repository's simple-merge batch:
all preconditions hold and the assertion passes. -/
theorem merge_asserts_hold_of_nonneg_witness :
    merge_asserts wB1 = true := by
  have hq : ∀ u : TradeActivity, (.trade u) ∈ wB1 → 0 ≤ u.quantity := by
    intro u hu
    simp only [wB1, List.mem_cons, List.not_mem_nil, or_false] at hu
    rcases hu with h | h | h <;> (injection h with h2; subst h2; decide)
  have hqc : ∀ u : TradeActivity, (.trade u) ∈ wB1 → u.quantity ≤ u.cumulativeQuantity := by
    intro u hu
    simp only [wB1, List.mem_cons, List.not_mem_nil, or_false] at hu
    rcases hu with h | h | h <;> (injection h with h2; subst h2; decide)
  have hcum : ∀ u : TradeActivity, (.trade u) ∈ wB1 → u.unfilledQuantity = 0 →
      gSum u.orderId u.price wB1 ≤ u.cumulativeQuantity := by
    intro u hu hu0
    simp only [wB1, List.mem_cons, List.not_mem_nil, or_false] at hu
    rcases hu with h | h | h
    · injection h with h2
      subst h2
      exact absurd hu0 (by decide)
    · injection h with h2
      subst h2
      exact absurd hu0 (by decide)
    · injection h with h2
      subst h2
      norm_num [gSum, wB1, tradeQP, wP1, wP2, wTerm]
  exact (merge_asserts_hold_of_nonneg wB1 hq hqc hcum).1

/-- C1: for a batch whose trades of a given order id all share one
price and contain exactly one terminal fill `T` (zero unfilled
quantity), `merge_partial_fills` leaves exactly one trade record of
that order, whose quantity is the sum of the quantities of all the
order's records and whose cumulative and unfilled quantities are the
terminal fill's original values. -/
theorem merge_partial_fills_collapses_group :
    ∀ (B : List Activity) (oid : String) (p : ℚ) (T : TradeActivity),
      (∀ u ∈ tradesOf oid B, u.price = p) →
      (tradesOf oid B).filter (fun u => u.unfilledQuantity = 0) = [T] →
      tradesOf oid (merge_partial_fills B)
        = [{ T with quantity := ((tradesOf oid B).map (fun u => u.quantity)).sum }] := by
  intro B oid p T hprice huniq
  have hdone : mergedDone (merge_partial_fills B) := by
    apply mergeLoop_done B.length B 0 (by omega)
    intro k hk
    exact absurd hk (Nat.not_lt_zero k)
  -- terminal fills of the order are preserved (quantities erased)
  have hterm_pres : (merge_partial_fills B).filterMap (termKeyO oid)
      = B.filterMap (termKeyO oid) := by
    apply mergeLoop_filterMap (termKeyO oid)
    · intro t c _ _ _ _
      rfl
    · intro t ht
      rw [termKeyO_trade, if_neg (fun hh => ht hh.2)]
  have hterms : (merge_partial_fills B).filterMap (termKeyO oid) = [eraseT T] := by
    rw [hterm_pres, termKeyO_eq_filter, huniq]
    rfl
  -- order's total quantity is preserved
  have hqsum : qSum oid (merge_partial_fills B) = qSum oid B :=
    mergeLoop_sum (tradeQ oid)
      (fun t c _ hoid _ _ => tradeQ_merge_step oid t c hoid) B.length B 0
  -- facts about the terminal fill
  have hTmem' : T ∈ (tradesOf oid B).filter (fun u => u.unfilledQuantity = 0) := by
    rw [huniq]
    exact List.mem_singleton.mpr rfl
  have hTmem : T ∈ tradesOf oid B := (List.mem_filter.mp hTmem').1
  have hTprice : T.price = p := hprice T hTmem
  -- the price of any surviving trade of the order is p
  have hpriceM : ∀ u ∈ tradesOf oid (merge_partial_fills B), u.price = p := by
    intro u hu
    obtain ⟨humem, huoid⟩ := (mem_tradesOf oid (merge_partial_fills B) u).mp hu
    obtain ⟨v, hvB, hve⟩ := merge_trade_source B u humem
    have hvoid : v.orderId = u.orderId := by
      have h := congrArg TradeActivity.orderId hve
      simpa [eraseT] using h
    have hvp : v.price = u.price := by
      have h := congrArg TradeActivity.price hve
      simpa [eraseT] using h
    have hvmem : v ∈ tradesOf oid B :=
      (mem_tradesOf oid B v).mpr ⟨hvB, hvoid.trans huoid⟩
    rw [← hvp]
    exact hprice v hvmem
  -- no surviving trade of the order is a partial fill
  have hnopart : ∀ u ∈ tradesOf oid (merge_partial_fills B), u.unfilledQuantity = 0 := by
    intro u hu
    by_contra hunf
    obtain ⟨humem, huoid⟩ := (mem_tradesOf oid (merge_partial_fills B) u).mp hu
    have hup : u.price = p := hpriceM u hu
    -- a terminal fill of the order survives in the output
    have hTin : eraseT T ∈ (merge_partial_fills B).filterMap (termKeyO oid) := by
      rw [hterms]
      exact List.mem_singleton.mpr rfl
    obtain ⟨a, haM, hka⟩ := List.mem_filterMap.mp hTin
    cases a with
    | nonTrade nt =>
      rw [termKeyO_nonTrade] at hka
      exact Option.noConfusion hka
    | trade c =>
      rw [termKeyO_trade] at hka
      by_cases hc : c.orderId = oid ∧ c.unfilledQuantity = 0
      · rw [if_pos hc] at hka
        have herase : eraseT c = eraseT T := by injection hka
        have hcp : c.price = T.price := by
          have h := congrArg TradeActivity.price herase
          simpa [eraseT] using h
        refine hdone u humem hunf ⟨.trade c, haM, ?_⟩
        exact ⟨hc.1.trans huoid.symm, (hcp.trans hTprice).trans hup.symm, hc.2⟩
      · rw [if_neg hc] at hka
        exact Option.noConfusion hka
  -- hence the order's surviving trades coincide with its terminal fills
  have hfilt : (tradesOf oid (merge_partial_fills B)).filter
      (fun u => u.unfilledQuantity = 0) = tradesOf oid (merge_partial_fills B) :=
    List.filter_eq_self.mpr (fun u hu => by
      simp only [decide_eq_true_eq]
      exact hnopart u hu)
  have hmapT : (tradesOf oid (merge_partial_fills B)).map eraseT = [eraseT T] := by
    rw [← hfilt, ← termKeyO_eq_filter, hterms]
  obtain ⟨t0, ht0⟩ : ∃ t0, tradesOf oid (merge_partial_fills B) = [t0] := by
    cases hM0 : tradesOf oid (merge_partial_fills B) with
    | nil => rw [hM0] at hmapT; exact absurd hmapT (by simp)
    | cons x xs =>
      cases xs with
      | nil => exact ⟨x, rfl⟩
      | cons y ys => rw [hM0] at hmapT; exact absurd hmapT (by simp)
  have he0 : eraseT t0 = eraseT T := by
    rw [ht0] at hmapT
    simpa using hmapT
  have hq0 : t0.quantity = ((tradesOf oid B).map (fun u => u.quantity)).sum := by
    have h1 : qSum oid (merge_partial_fills B) = t0.quantity := by
      rw [qSum_eq_tradesOf, ht0]
      simp
    rw [← h1, hqsum, qSum_eq_tradesOf]
  rw [ht0]
  congr 1
  cases t0 with
  | mk i0 o0 s0 sd0 p0 q0 c0 u0 tt0 =>
    cases T with
    | mk i1 o1 s1 sd1 p1 q1 c1 u1 tt1 =>
      simp only [eraseT, TradeActivity.mk.injEq] at he0
      obtain ⟨e1, e2, e3, e4, e5, -, e7, e8, e9⟩ := he0
      simp only [TradeActivity.mk.injEq]
      exact ⟨e1, e2, e3, e4, e5, hq0, e7, e8, e9⟩

/-- Witness for C1 at the repository's simple-merge batch: the three
fills of order "o1" at price 9.33 collapse to one record of quantity
1 + 1 + 54 = 56 with the terminal's cumulative (56) and unfilled (0)
quantities. -/
theorem merge_partial_fills_collapses_group_witness :
    (tradesOf "o1" wB1).filter (fun u => u.unfilledQuantity = 0) = [wTerm]
    ∧ tradesOf "o1" (merge_partial_fills wB1)
        = [{ wTerm with quantity := ((tradesOf "o1" wB1).map (fun u => u.quantity)).sum }] := by
  have hlist : tradesOf "o1" wB1 = [wP1, wP2, wTerm] := rfl
  have hprice : ∀ u ∈ tradesOf "o1" wB1, u.price = 933/100 := by
    intro u hu
    rw [hlist] at hu
    simp only [List.mem_cons, List.not_mem_nil, or_false] at hu
    rcases hu with rfl | rfl | rfl <;> rfl
  have huniq : (tradesOf "o1" wB1).filter (fun u => u.unfilledQuantity = 0) = [wTerm] := by
    rw [hlist]
    rfl
  exact ⟨huniq,
    merge_partial_fills_collapses_group wB1 "o1" (933/100) wTerm hprice huniq⟩

/-- Counterexample to C3 as stated: a TAF fee whose extracted share
count (7) matches no trade in the batch is NOT a fatal error:
`associate_fees_with_trades` returns Ok with the fee left standalone. -/
theorem assoc_unmatched_fee_no_error_cex :
    feeParse "TAF fee for proceed of 7 shares" = .taf 7
    ∧ associate_fees_with_trades wB3 = .ok [.nonTrade w3Fee] :=
  ⟨rfl, rfl⟩

/-- C3 (amended): a TAF/REG fee whose extracted share count matches no
trade's quantity and whose extracted proceeds match no trade's
price × quantity is left as a standalone non-trade record in the
output, and `associate_fees_with_trades` returns Ok (no fatal error)
provided every fee in the batch has a classifiable description. -/
theorem assoc_unmatched_fee_kept :
    ∀ (B : List Activity) (nt : NonTradeActivity) (d : String),
      (Activity.nonTrade nt) ∈ B → nt.type_ = ActivityType.fee →
      nt.description = some d →
      (∀ nt' : NonTradeActivity, (Activity.nonTrade nt') ∈ B → feeClassifiable nt') →
      (∀ n : Nat, feeParse d = .taf n →
        ∀ t : TradeActivity, (Activity.trade t) ∈ B → ¬(t.quantity = (n : ℚ))) →
      (∀ p : ℚ, feeParse d = .reg p →
        ∀ t : TradeActivity, (Activity.trade t) ∈ B → ¬(t.price * t.quantity = p)) →
      ∃ r, associate_fees_with_trades B = .ok r ∧ (PActivity.nonTrade nt) ∈ r ∧
        ∀ (t : TradeActivity) (fees : List NonTradeActivity),
          (PActivity.trade t fees) ∈ r → nt ∉ fees := by
  intro B nt d hmem _hfee hdesc hclass htaf hreg
  obtain ⟨r, hr⟩ := assocLoop_ok B.length (B.map PActivity.ofActivity) 0
    (fun m hm => hclass m ((mem_map_ofActivity_nonTrade B m).mp hm))
  refine ⟨r, hr, ?_⟩
  apply assocLoop_keeps B.length (B.map PActivity.ofActivity) 0 nt
    ((mem_map_ofActivity_nonTrade B nt).mpr hmem) ?_ ?_ r hr
  · intro t fees hf
    obtain ⟨a, ha, heq⟩ := List.mem_map.mp hf
    cases a with
    | trade t' =>
      obtain ⟨-, h2⟩ : t' = t ∧ ([] : List NonTradeActivity) = fees := by
        constructor <;> injection heq <;> assumption
      rw [← h2]
      exact List.not_mem_nil nt
    | nonTrade nt' => exact PActivity.noConfusion heq
  · intro d' hd'
    obtain rfl : d = d' := by
      rw [hdesc] at hd'
      injection hd'
    constructor
    · intro n hp t fees htf
      exact htaf n hp t (mem_map_ofActivity_trade B t fees htf)
    · intro p hp t fees htf
      exact hreg p hp t (mem_map_ofActivity_trade B t fees htf)

/-- Witness for the amended C3: the unmatched TAF fee of `wB3` is kept
standalone and no error is raised. -/
theorem assoc_unmatched_fee_kept_witness :
    (Activity.nonTrade w3Fee) ∈ wB3
    ∧ ∃ r, associate_fees_with_trades wB3 = .ok r ∧ (PActivity.nonTrade w3Fee) ∈ r ∧
        ∀ (t : TradeActivity) (fees : List NonTradeActivity),
          (PActivity.trade t fees) ∈ r → w3Fee ∉ fees := by
  have hmem : (Activity.nonTrade w3Fee) ∈ wB3 := List.mem_singleton.mpr rfl
  refine ⟨hmem, assoc_unmatched_fee_kept wB3 w3Fee "TAF fee for proceed of 7 shares"
    hmem rfl rfl ?_ ?_ ?_⟩
  · intro nt' hm _hfee
    have hnt : nt' = w3Fee := by
      simp only [wB3, List.mem_cons, List.not_mem_nil, or_false] at hm
      injection hm
    subst hnt
    exact ⟨"TAF fee for proceed of 7 shares", rfl, by decide⟩
  · intro n _hp t ht
    simp only [wB3, List.mem_cons, List.not_mem_nil, or_false] at ht
    exact Activity.noConfusion ht
  · intro p _hp t ht
    simp only [wB3, List.mem_cons, List.not_mem_nil, or_false] at ht
    exact Activity.noConfusion ht

/-- Counterexample to C8 as stated: a fee whose description starts with
"ADR Fees" but also matches the TAF pattern is attached to a matching
trade (the TAF pattern is tried first), so an ADR-prefixed fee is not
always standalone. -/
theorem adr_fee_attached_cex :
    adrMatch "ADR Fees TAF fee for proceed of 5 shares".data = true
    ∧ associate_fees_with_trades cexB8 = .ok [.trade w8Trade [w8Fee]] :=
  ⟨rfl, rfl⟩

/-- C8 (amended): a fee whose description starts with "ADR Fees" and
matches neither the TAF nor the REG pattern is never attached to any
trade by `associate_fees_with_trades` (it stays a standalone non-trade
record in any Ok output), is classified to the brokerage-fee account,
and is rendered by `print_non_trade` as its own posting against the
brokerage-fee account. -/
theorem adr_only_fee_standalone :
    ∀ (B : List Activity) (nt : NonTradeActivity) (d : String)
      (ia ba bfa da sfa fta : String) (registry : List (String × String)),
      (Activity.nonTrade nt) ∈ B → nt.type_ = ActivityType.fee →
      nt.description = some d →
      tafScan d.data = none → regScan d.data = none → adrMatch d.data = true →
      (∀ r, associate_fees_with_trades B = .ok r →
        (PActivity.nonTrade nt) ∈ r ∧
          ∀ (t : TradeActivity) (fees : List NonTradeActivity),
            (PActivity.trade t fees) ∈ r → nt ∉ fees)
      ∧ classify_fee nt bfa sfa fta = .ok (bfa, d)
      ∧ print_non_trade nt ia ba bfa da sfa fta registry
          = .ok [.feePosting nt.date.day bfa d (-nt.netAmount)] := by
  intro B nt d ia ba bfa da sfa fta registry hmem htype hdesc hts hrs har
  have hpd : feeParse d = .adr := by simp [feeParse, hts, hrs, har]
  have hcl : classify_fee nt bfa sfa fta = .ok (bfa, d) := by
    simp [classify_fee, hdesc, hts, hrs, har]
  refine ⟨?_, hcl, ?_⟩
  · intro r hr
    apply assocLoop_keeps B.length (B.map PActivity.ofActivity) 0 nt
      ((mem_map_ofActivity_nonTrade B nt).mpr hmem) ?_ ?_ r hr
    · intro t fees hf
      obtain ⟨a, ha, heq⟩ := List.mem_map.mp hf
      cases a with
      | trade t' =>
        obtain ⟨-, h2⟩ : t' = t ∧ ([] : List NonTradeActivity) = fees := by
          constructor <;> injection heq <;> assumption
        rw [← h2]
        exact List.not_mem_nil nt
      | nonTrade nt' => exact PActivity.noConfusion heq
    · intro d' hd'
      obtain rfl : d = d' := by
        rw [hdesc] at hd'
        injection hd'
      constructor
      · intro n hp
        rw [hpd] at hp
        exact FeeParse.noConfusion hp
      · intro p hp
        rw [hpd] at hp
        exact FeeParse.noConfusion hp
  · simp [print_non_trade, htype, hcl]

/-- Witness for the amended C8: the plain ADR fee of `wB8` survives
association standalone, classifies to the brokerage-fee account and is
rendered as its own posting. -/
theorem adr_only_fee_standalone_witness :
    ((PActivity.nonTrade w8Adr) ∈ [PActivity.trade w8Trade [], PActivity.nonTrade w8Adr]
      ∧ ∀ (t : TradeActivity) (fees : List NonTradeActivity),
          (PActivity.trade t fees) ∈ [PActivity.trade w8Trade [], PActivity.nonTrade w8Adr] →
            w8Adr ∉ fees)
    ∧ classify_fee w8Adr "bf" "sec" "taf" = .ok ("bf", "ADR Fees for QRS")
    ∧ print_non_trade w8Adr "i" "b" "bf" "d" "s" "taf" []
        = .ok [.feePosting 2 "bf" "ADR Fees for QRS" 3] := by
  have h := adr_only_fee_standalone wB8 w8Adr "ADR Fees for QRS" "i" "b" "bf" "d" "s" "taf" []
    (List.mem_cons_of_mem _ (List.mem_singleton.mpr rfl)) rfl rfl rfl rfl rfl
  refine ⟨h.1 [PActivity.trade w8Trade [], PActivity.nonTrade w8Adr] rfl, h.2.1, ?_⟩
  have h3 := h.2.2
  norm_num [w8Adr] at h3
  exact h3

end Apcaledge
